import Mathlib

/-!
Verification development for the flagpole test-automation engine.

This file shallowly embeds, in Lean 4, the parts of the code base that the
frozen claims talk about:

* the `Value` wrapper and its projections (`src/unnamed/part_000`, class `Value`);
* URL building (`Scenario.buildUrl` in `src/src/scenario.ts`);
* the `Scenario` state machine (`src/src/scenario.ts`): `execute`, `skip`,
  the hook-firing helpers, `_processResponse` and `_markScenarioCompleted`.

Modelling conventions:

* JavaScript values are restricted to scalars and flat arrays of scalars
  (`JsPrim`, `JsVal`); the claims only exercise these shapes.
* JS numbers are modelled as `Int` (no claim depends on float semantics).
* Asynchronous behaviour is modelled by explicit state passing plus an event
  trace (`Event`); wall-clock instants are explicit `now : Nat` parameters.
* In-place mutation of an underlying array (JS `Array.prototype.sort`) is
  modelled by returning, next to the projection result, the underlying data
  of the source after the call (`ProjOut.sourceInput`).
-/

/-- A scalar JavaScript value, as the `Value` wrapper can carry. -/
inductive JsPrim where
  | pNull
  | pUndefined
  | pBool (b : Bool)
  | pNum (n : Int)
  | pStr (s : String)
deriving DecidableEq, Repr

/-- A JavaScript value: a scalar or a flat array of scalars.  The source
`Value` class accepts arbitrary data; the claims only exercise scalars and
flat arrays, so the model is restricted to those. -/
inductive JsVal where
  | prim (p : JsPrim)
  | arr (xs : List JsPrim)
deriving DecidableEq, Repr

/-- JS `String(x)` on a scalar. -/
def JsPrim.jsString : JsPrim → String
  | .pNull => "null"
  | .pUndefined => "undefined"
  | .pBool b => if b then "true" else "false"
  | .pNum n => toString n
  | .pStr s => s

/-- Element stringification used by `Array.prototype.toString` and
`Array.prototype.join`: `null` and `undefined` become the empty string. -/
def JsPrim.arrayElemString : JsPrim → String
  | .pNull => ""
  | .pUndefined => ""
  | p => p.jsString

/-- JS `String(x)`: arrays stringify as their elements joined with commas.
This is the `String(this._input)` default branch of `Value.toString()`; the
other branches of that method concern nested `Value`s and objects, which are
outside the model's data universe. -/
def JsVal.jsString : JsVal → String
  | .prim p => p.jsString
  | .arr xs => String.intercalate "," (xs.map JsPrim.arrayElemString)

/-- `Value.toArray()`: the underlying array itself when the input is an
array (no copy is taken in the source), else a fresh singleton. -/
def JsVal.toArrayL : JsVal → List JsPrim
  | .prim p => [p]
  | .arr xs => xs

/-- Whether a `JsVal` is an array (`toType(input) == "array"`). -/
def JsVal.isArrayV : JsVal → Bool
  | .prim _ => false
  | .arr _ => true

/-- ASCII whitespace recognised by JS `String.prototype.trim` (the model is
restricted to ASCII input). -/
def isJsWhitespace (c : Char) : Bool :=
  c = ' ' || c = '\t' || c = '\n' || c = '\r' || c = '\x0b' || c = '\x0c'

/-- JS `String.prototype.trim` on ASCII strings. -/
def jsTrim (s : String) : String :=
  let l := s.toList.dropWhile isJsWhitespace
  ((l.reverse.dropWhile isJsWhitespace).reverse).asString

/-- JS `String.prototype.toUpperCase` on ASCII strings. -/
def jsToUpperCase (s : String) : String :=
  (s.toList.map Char.toUpper).asString

/-- JS `String.prototype.toLowerCase` on ASCII strings. -/
def jsToLowerCase (s : String) : String :=
  (s.toList.map Char.toLower).asString

/-- JS `String.prototype.split` with a non-empty string separator and no
limit: `Lean.splitOn` agrees with JS on every such call. -/
def jsSplit (s sep : String) : List String :=
  s.splitOn sep

/-- JS `Array.prototype.join`. -/
def jsJoin (sep : String) (xs : List JsPrim) : String :=
  String.intercalate sep (xs.map JsPrim.arrayElemString)

/-- `[...new Set(arr)]`: deduplication keeping first occurrences. -/
def jsSetDedupAux : List JsPrim → List JsPrim → List JsPrim
  | [], _ => []
  | x :: xs, seen => if x ∈ seen then jsSetDedupAux xs seen else x :: jsSetDedupAux xs (x :: seen)

/-- `[...new Set(arr)]` on a flat array. -/
def jsSetDedup (xs : List JsPrim) : List JsPrim :=
  jsSetDedupAux xs []

/-- One collation token: a maximal digit run (compared numerically) or a
single case-folded character. -/
inductive ColTok where
  | num (n : Nat) (len : Nat)
  | ch (c : Char)
deriving DecidableEq, Repr

/-- The numeric value of an ASCII digit. -/
def charDigit (c : Char) : Nat :=
  c.toNat - 48

/-- Flush a pending digit run into a numeric collation token. -/
def flushTok : Option (Nat × Nat) → List ColTok
  | none => []
  | some (n, len) => [ColTok.num n len]

/-- Modelled from the spec: the locale-aware, numeric-aware comparator
(`Intl.Collator("en", numeric, base sensitivity)` in the source) restricted
to ASCII strings.  Digit runs compare as numbers, other characters compare
case-folded; a digit run sorts before a letter.  The accumulator carries
the value and length of the digit run being read. -/
def colTokensAux : List Char → Option (Nat × Nat) → List ColTok
  | [], acc => flushTok acc
  | c :: rest, acc =>
    if c.isDigit then
      colTokensAux rest
        (some (match acc with
          | none => (charDigit c, 1)
          | some (n, len) => (n * 10 + charDigit c, len + 1)))
    else
      flushTok acc ++ (ColTok.ch c.toLower :: colTokensAux rest none)

/-- Tokenization of a string for collation. -/
def colTokens (l : List Char) : List ColTok :=
  colTokensAux l none

/-- Comparison of two collation tokens. -/
def colTokCmp : ColTok → ColTok → Ordering
  | .num a la, .num b lb => (compare a b).then (compare la lb)
  | .num _ _, .ch _ => .lt
  | .ch _, .num _ _ => .gt
  | .ch a, .ch b => compare a b

/-- Lexicographic comparison of token lists. -/
def colTokListCmp : List ColTok → List ColTok → Ordering
  | [], [] => .eq
  | [], _ :: _ => .lt
  | _ :: _, [] => .gt
  | a :: as_, b :: bs => (colTokCmp a b).then (colTokListCmp as_ bs)

/-- Modelled from the spec: `collator.compare` for the collator built in
`Value.asc` / `Value.desc`. -/
def collatorCompare (a b : String) : Ordering :=
  colTokListCmp (colTokens a.toList) (colTokens b.toList)

/-- Insert `x` into an already-sorted list, after any element that does not
compare strictly greater: together with `jsSort` this is a stable sort, as
`Array.prototype.sort` with a consistent comparator must be. -/
def stableInsert (cmp : α → α → Ordering) (x : α) : List α → List α
  | [] => [x]
  | y :: ys => if cmp x y = .lt then x :: y :: ys else y :: stableInsert cmp x ys

/-- `Array.prototype.sort(cmp)` for a consistent comparator: a stable sort.
The in-place nature of the JS call is modelled separately (`ProjOut`). -/
def jsSort (cmp : α → α → Ordering) (l : List α) : List α :=
  l.foldl (fun acc x => stableInsert cmp x acc) []

/-- The comparator passed to `sort` in `Value.asc`: the collator applied to
the element coerced to a string. -/
def ascCmp (a b : JsPrim) : Ordering :=
  collatorCompare a.jsString b.jsString

/-- The comparator passed to `sort` in `Value.desc`: the `asc` comparator
multiplied by `-1`. -/
def descCmp (a b : JsPrim) : Ordering :=
  (ascCmp a b).swap

/-- Modelled from the spec: `firstIn` from the repository's `util` module
(not under `src/`) — the first element of a collection-like value
(`obj[0]`): arrays yield their head, strings their first character,
anything else `undefined`. -/
def firstIn : JsVal → JsPrim
  | .arr [] => .pUndefined
  | .arr (x :: _) => x
  | .prim (.pStr s) =>
    match s.toList with
    | [] => .pUndefined
    | c :: _ => .pStr (String.mk [c])
  | .prim _ => .pUndefined

/-- Modelled from the spec: `lastIn` from the missing `util` module — the
last element of a collection-like value (`obj[obj.length - 1]`). -/
def lastIn : JsVal → JsPrim
  | .arr xs =>
    match xs.getLast? with
    | some x => x
    | none => .pUndefined
  | .prim (.pStr s) =>
    match s.toList.getLast? with
    | some c => .pStr (String.mk [c])
    | none => .pUndefined
  | .prim _ => .pUndefined

/-- Modelled from the spec: `nthIn` from the missing `util` module — the
element at an index of a collection-like value (`obj[i]`). -/
def nthIn (v : JsVal) (i : Nat) : JsPrim :=
  match v with
  | .arr xs =>
    match xs.get? i with
    | some x => x
    | none => .pUndefined
  | .prim (.pStr s) =>
    match s.toList.get? i with
    | some c => .pStr (String.mk [c])
    | none => .pUndefined
  | .prim _ => .pUndefined

/-- Modelled from the spec: `toOrdinal` from the missing `util` module —
the English ordinal string for a number ("1st", "2nd", "3rd", "4th", ...). -/
def toOrdinal (n : Nat) : String :=
  let suffix :=
    if n % 100 = 11 || n % 100 = 12 || n % 100 = 13 then "th"
    else if n % 10 = 1 then "st"
    else if n % 10 = 2 then "nd"
    else if n % 10 = 3 then "rd"
    else "th"
  toString n ++ suffix

/-- The `Value` wrapper (class `Value` in `src/unnamed/part_000`): the
underlying input plus the nullable derived name (`_name`).  The assertion
context, parent link, highlight string and source-code fields play no role
in the claims and are omitted. -/
structure Value where
  input : JsVal
  name : Option String
deriving DecidableEq, Repr

/-- The `name` getter: `this._name || "it"` (the empty string is falsy). -/
def Value.nameStr (v : Value) : String :=
  match v.name with
  | some s => if s = "" then "it" else s
  | none => "it"

/-- Interpolation of the raw `_name` field inside a template literal:
JavaScript renders `null` as the string "null". -/
def Value.rawNameStr (v : Value) : String :=
  match v.name with
  | some s => s
  | none => "null"

/-- Outcome of a projection call: the freshly constructed result `Value`
and the underlying data of the *source* after the call (JS `sort` works in
place, so some projections mutate the source's array). -/
structure ProjOut where
  result : Value
  sourceInput : JsVal
deriving DecidableEq, Repr

/-- `Value.trim` (part_000 l.207): trims string inputs, passes anything
else through; the result is named `Trim of ${this._name}`. -/
def Value.trimP (v : Value) : ProjOut :=
  let d := match v.input with
    | .prim (.pStr s) => JsVal.prim (.pStr (jsTrim s))
    | x => x
  { result := { input := d, name := some ("Trim of " ++ v.rawNameStr) },
    sourceInput := v.input }

/-- `Value.uppercase` (part_000 l.216). -/
def Value.uppercaseP (v : Value) : ProjOut :=
  let d := match v.input with
    | .prim (.pStr s) => JsVal.prim (.pStr (jsToUpperCase s))
    | x => x
  { result := { input := d, name := some ("Uppercase of " ++ v.rawNameStr) },
    sourceInput := v.input }

/-- `Value.lowercase` (part_000 l.225). -/
def Value.lowercaseP (v : Value) : ProjOut :=
  let d := match v.input with
    | .prim (.pStr s) => JsVal.prim (.pStr (jsToLowerCase s))
    | x => x
  { result := { input := d, name := some ("Lowercase of " ++ v.rawNameStr) },
    sourceInput := v.input }

/-- `Value.first` (part_000 l.234). -/
def Value.firstP (v : Value) : ProjOut :=
  { result := { input := .prim (firstIn v.input), name := some ("First in " ++ v.rawNameStr) },
    sourceInput := v.input }

/-- `Value.last` (part_000 l.252). -/
def Value.lastP (v : Value) : ProjOut :=
  { result := { input := .prim (lastIn v.input), name := some ("Last in " ++ v.rawNameStr) },
    sourceInput := v.input }

/-- `Value.nth` (part_000 l.927): `nthIn(this.$, index)`, named
`${toOrdinal(index + 1)} value in ${this.name}`. -/
def Value.nthP (i : Nat) (v : Value) : ProjOut :=
  { result := { input := .prim (nthIn v.input i),
                name := some (toOrdinal (i + 1) ++ " value in " ++ v.nameStr) },
    sourceInput := v.input }

/-- `Value.split` (part_000 l.906) with a string separator and no limit:
`this.toString().split(by)`, carrying `this.name` over unchanged. -/
def Value.splitP (sep : String) (v : Value) : ProjOut :=
  { result := { input := .arr ((jsSplit v.input.jsString sep).map JsPrim.pStr),
                name := some v.nameStr },
    sourceInput := v.input }

/-- `Value.join` (part_000 l.914): `this.toArray().join(by)`, carrying
`this.name` over unchanged. -/
def Value.joinP (sep : String) (v : Value) : ProjOut :=
  { result := { input := .prim (.pStr (jsJoin sep v.input.toArrayL)),
                name := some v.nameStr },
    sourceInput := v.input }

/-- `Value.unique` (part_000 l.998): `[...new Set(this.toArray())]`; the
spread builds a fresh array, so the source is untouched. -/
def Value.uniqueP (v : Value) : ProjOut :=
  { result := { input := .arr (jsSetDedup v.input.toArrayL), name := some v.nameStr },
    sourceInput := v.input }

/-- `Value.asc` (part_000 l.1017): `this.toArray().sort(collator.compare)`.
`toArray()` returns the underlying array itself when the input is an array
and JS `sort` sorts in place, so in that case the source's underlying data
becomes the sorted array. -/
def Value.ascP (v : Value) : ProjOut :=
  let sorted := jsSort ascCmp v.input.toArrayL
  { result := { input := .arr sorted, name := some v.nameStr },
    sourceInput := match v.input with
      | .arr _ => .arr sorted
      | x => x }

/-- `Value.desc` (part_000 l.1028): as `asc` with the comparator negated;
it mutates an array input in place the same way. -/
def Value.descP (v : Value) : ProjOut :=
  let sorted := jsSort descCmp v.input.toArrayL
  { result := { input := .arr sorted, name := some v.nameStr },
    sourceInput := match v.input with
      | .arr _ => .arr sorted
      | x => x }

/-- A parsed WHATWG URL restricted to the shapes the engine uses: a special
scheme (with trailing colon, as `URL.protocol` reports it), a host, and the
rest of the string (`pathname` here also carries any query or fragment,
which no claim inspects). -/
structure Url where
  protocol : String
  host : String
  pathname : String
deriving DecidableEq, Repr

/-- Serialization, as `URL.href` reports it. -/
def Url.href (u : Url) : String :=
  u.protocol ++ "//" ++ u.host ++ u.pathname

/-- `String.prototype.startsWith` (and anchored regex tests), phrased over
the character lists so that prefix lemmas apply. -/
def strStartsWith (s pre : String) : Bool :=
  pre.toList.isPrefixOf s.toList

/-- WHATWG parsing skips any number of slashes between a special scheme and
the authority. -/
def dropLeadingSlashes : List Char → List Char
  | '/' :: rest => dropLeadingSlashes rest
  | l => l

/-- Split an authority-plus-path character list at the first slash. -/
def splitHostPath (l : List Char) : String × String :=
  let host := l.takeWhile (fun c => c ≠ '/')
  let path := l.dropWhile (fun c => c ≠ '/')
  (host.asString, if path.isEmpty then "/" else path.asString)

/-- One scheme attempt of the URL parser. -/
def tryScheme (scheme : String) (l : List Char) : Option Url :=
  let pre := (scheme ++ ":").toList
  if pre.isPrefixOf l then
    let rest := dropLeadingSlashes (l.drop pre.length)
    if rest.isEmpty then none
    else
      let hp := splitHostPath rest
      if hp.1 = "" then none else some ⟨scheme ++ ":", hp.1, hp.2⟩
  else none

/-- `new URL(s)` (the WHATWG parser) modelled for absolute http/https URLs;
`none` models the `TypeError` thrown on anything else. -/
def parseUrlChars (l : List Char) : Option Url :=
  match tryScheme "https" l with
  | some u => some u
  | none => tryScheme "http" l

/-- String-level entry point of the URL parser. -/
def parseUrlString (s : String) : Option Url :=
  parseUrlChars s.toList

/-- RFC 3986 path merge used by relative resolution: the base path up to and
including its last slash, followed by the relative reference (dot-segment
normalization is outside the model; no claim exercises it). -/
def mergePaths (basePath rel : String) : String :=
  let pre := (basePath.toList.reverse.dropWhile (fun c => c ≠ '/')).reverse
  pre.asString ++ rel

/-- `new URL(path, base.href)` — WHATWG relative resolution, restricted to
the http/https fragment of the model. -/
def resolveAgainst (base : Url) (path : String) : Option Url :=
  match parseUrlString path with
  | some u => some u
  | none =>
    if strStartsWith path "//" then parseUrlString (base.protocol ++ path)
    else if strStartsWith path "/" then some { base with pathname := path }
    else if path = "" then some base
    else some { base with pathname := mergePaths base.pathname path }

/-- `Scenario.buildUrl` (scenario.ts l.809), translated branch by branch.
The suite's base URL is `none` when unset; the scenario's URL is `none` for
a null URL (`this.url || "/"` makes both null and the empty string "/").
`none` as a result models the `TypeError` of the `URL` constructor.  The
`data:` branch of the source falls inside the absolute-URL branch here; only
http/https URLs are representable in the model. -/
def buildUrl (baseUrl : Option Url) (scenarioUrl : Option String) : Option Url :=
  let path := match scenarioUrl with
    | some u => if u = "" then "/" else u
    | none => "/"
  match baseUrl with
  | none => parseUrlString path
  | some base =>
    if strStartsWith path "http://" || strStartsWith path "https://" || strStartsWith path "data:" then
      parseUrlString path
    else if strStartsWith path "//" then
      parseUrlString (base.protocol ++ "//" ++ path)
    else if strStartsWith path "/" then
      parseUrlString (base.protocol ++ "//" ++ base.host ++ path)
    else
      resolveAgainst base path

/-- A log entry (`iLogItem`).  Modelled from the spec for the missing
`logging/` module: heading, sub-heading, comment, passing assertion,
failing assertion (`type == "resultFailure"` in `Scenario.hasFailed`), and
failing-assertion warning (which does not count as a failure). -/
inductive LogItem where
  | heading (msg : String)
  | subHeading (msg : String)
  | comment (msg : String)
  | pass (msg : String)
  | fail (msg : String) (details : Option String)
  | failWarning (msg : String)
deriving DecidableEq, Repr

/-- Whether a log entry is a failing assertion (`item.type == "resultFailure"`). -/
def LogItem.isFail : LogItem → Bool
  | .fail _ _ => true
  | _ => false

/-- The five lifecycle hook lists. -/
inductive HookKind where
  | before
  | after
  | success
  | failure
  | finalH
deriving DecidableEq, Repr

/-- One observable step of a scenario run.  Hook callbacks are opaque user
code, so firing one is an event; every log append is an event too, which
linearizes hook firings and log writes into one trace. -/
inductive Event where
  | hook (k : HookKind) (idx : Nat)
  | logged (item : LogItem)
  | fetchDispatched
  | phaseStarted (idx : Nat)
deriving DecidableEq, Repr

/-- What an assertion-phase callback does when invoked, abstracting the
user code: it either throws synchronously, or returns, in which case its
return value, the assertions it started and the sub-scenarios it spawned
all settle `settleMs` milliseconds later (`rejects` carries the error if
any of them rejects). -/
inductive PhaseBehavior where
  | throws (msg : String)
  | returns (settleMs : Nat) (rejects : Option String)
deriving DecidableEq, Repr

/-- One registered assertion phase: the optional label pushed as a
sub-heading (the parallel `_nextCallbacks` / `_nextMessages` arrays of the
source are merged into one list), the callback's behaviour, and the names
of assertions it started but never awaited. -/
structure PhaseSpec where
  message : Option String
  behavior : PhaseBehavior
  incompleteAssertions : List String
deriving DecidableEq, Repr

/-- One registered lifecycle or pipe hook: only its optional message is
observable state (the callback itself is opaque user code). -/
structure HookSpec where
  message : Option String
deriving DecidableEq, Repr

/-- The mutable state of a `Scenario` (scenario.ts l.213-252), restricted
to the fields the claims touch.  Request descriptor details (headers, body,
auth, proxy, cookies), the browser control, subscribers and aliased data
are omitted; `responseTypeName` stands in for the response object's display
name used in the "Loaded" log line. -/
structure ScState where
  title : String
  url : Option String
  methodVerb : String
  responseTypeName : String
  nextCallbacks : List PhaseSpec
  beforeCallbacks : List HookSpec
  afterCallbacks : List HookSpec
  successCallbacks : List HookSpec
  failureCallbacks : List HookSpec
  finallyCallbacks : List HookSpec
  pipeCallbacks : List HookSpec
  log : List LogItem
  timeScenarioInitialized : Nat
  timeScenarioExecuted : Option Nat
  timeRequestStarted : Option Nat
  timeRequestLoaded : Option Nat
  timeScenarioFinished : Option Nat
  waitToExecute : Bool
  waitTime : Nat
  finalUrl : Option String
  suiteBaseUrl : Option Url
  isMock : Bool
deriving DecidableEq, Repr

/-- `Scenario.hasExecuted`: `this._timeScenarioExecuted !== null`. -/
def hasExecuted (s : ScState) : Bool :=
  s.timeScenarioExecuted.isSome

/-- `Scenario.hasFinished`: `this.hasExecuted && this._timeScenarioFinished !== null`. -/
def hasFinished (s : ScState) : Bool :=
  hasExecuted s && s.timeScenarioFinished.isSome

/-- `Scenario.hasRequestStarted`: `this._timeRequestStarted !== null`. -/
def hasRequestStarted (s : ScState) : Bool :=
  s.timeRequestStarted.isSome

/-- `Scenario.hasFailed`: some log item has `type == "resultFailure"`. -/
def scHasFailed (s : ScState) : Bool :=
  s.log.any LogItem.isFail

/-- `Scenario.hasPassed`: `this.hasFinished && !this.hasFailed`. -/
def scHasPassed (s : ScState) : Bool :=
  hasFinished s && !scHasFailed s

/-- A character allowed inside a `{...}` path parameter
(`[A-Za-z0-9_ -]`). -/
def isParamChar (c : Char) : Bool :=
  c.isUpper || c.isLower || c.isDigit || c = '_' || c = ' ' || c = '-'

/-- After at least one parameter character, look for more of them followed
by a closing brace. -/
def paramTail : List Char → Bool
  | [] => false
  | c :: rest => c = '\x7d' || (isParamChar c && paramTail rest)

/-- At least one parameter character followed (after more of them) by a
closing brace. -/
def paramBody : List Char → Bool
  | [] => false
  | c :: rest => isParamChar c && paramTail rest

/-- The test `/{[A-Za-z0-9_ -]+}/.test(url)` used by the URL setter and by
`isImplicitWait`: somewhere in the string an opening brace, one or more
parameter characters, and a closing brace. -/
def hasPathParamAux : List Char → Bool
  | [] => false
  | c :: rest =>
    if c = '\x7b' then paramBody rest || hasPathParamAux rest
    else hasPathParamAux rest

/-- String-level wrapper for the path-parameter test. -/
def hasPathParam (u : String) : Bool :=
  hasPathParamAux u.toList

/-- `Scenario.isImplicitWait`: `this.url === null || /{...}/.test(this.url)`. -/
def isImplicitWait (s : ScState) : Bool :=
  match s.url with
  | none => true
  | some u => hasPathParam u

/-- `Scenario.isExplicitWait`: `this._waitToExecute`. -/
def isExplicitWait (s : ScState) : Bool :=
  s.waitToExecute

/-- `Scenario.hasNextCallbacks`: `this._nextCallbacks.length > 0`. -/
def hasNextCallbacks (s : ScState) : Bool :=
  !s.nextCallbacks.isEmpty

/-- `Scenario.isReadyToExecute` (scenario.ts l.114). -/
def isReadyToExecute (s : ScState) : Bool :=
  !hasExecuted s && !isImplicitWait s && !isExplicitWait s && hasNextCallbacks s

/-- Append one item to the log (`Scenario._pushToLog`). -/
def pushLog (item : LogItem) (s : ScState) : ScState :=
  { s with log := s.log ++ [item] }

/-- `Scenario.wait(bool)` (scenario.ts l.453): when lifting an active wait
it records how long the scenario waited. -/
def scWait (b : Bool) (now : Nat) (s : ScState) : ScState :=
  let s1 :=
    if s.waitToExecute && !b then { s with waitTime := now - s.timeScenarioInitialized }
    else s
  { s1 with waitToExecute := b }

/-- Modelled from the spec: `HttpMethodVerbAllowedValues` lives in the
missing `httprequest.ts`; the request descriptor's method verbs. -/
def httpMethodVerbAllowedValues : List String :=
  ["get", "head", "delete", "patch", "post", "put", "options"]

/-- Maximal uppercase prefix of a character list. -/
def spanUpper (l : List Char) : List Char × List Char :=
  (l.takeWhile Char.isUpper, l.dropWhile Char.isUpper)

/-- `/([A-Z]+) (.*)/.exec(value)` from the URL setter: the leftmost run of
uppercase letters immediately followed by a space; returns the run and the
rest of the string (the model assumes the URL has no newline). -/
def execVerbMatchAux : List Char → Option (String × String)
  | [] => none
  | c :: rest =>
    if c.isUpper then
      match spanUpper (c :: rest) with
      | (run, ' ' :: tail) => some (run.asString, tail.asString)
      | _ => execVerbMatchAux rest
    else execVerbMatchAux rest

/-- String-level wrapper for the verb-prefix regex. -/
def execVerbMatch (v : String) : Option (String × String) :=
  execVerbMatchAux v.toList

/-- The verb-prefix handling of the `url` setter (scenario.ts l.149-157):
when the URL opens with an allowed `VERB `, the method is set and the verb
stripped from the value. -/
def verbAdjust (v : String) (s : ScState) : ScState × String :=
  match execVerbMatch v with
  | some (verb, rest) =>
    if httpMethodVerbAllowedValues.contains (jsToLowerCase verb) then
      ({ s with methodVerb := jsToLowerCase verb }, rest)
    else (s, v)
  | none => (s, v)

/-- The body of the URL setter once the verb prefix has been handled. -/
def setUrlCore (s1 : ScState) (v1 : String) : ScState :=
  let s2 := if hasPathParam v1 then scWait true 0 s1 else s1
  { s2 with url := some v1 }

/-- The `url` setter continued (scenario.ts l.144): refuses once the request
has started; strips a leading `VERB ` prefix into the method when the verb
is allowed; turns on the wait flag when the value still contains unresolved
path parameters; finally stores the value. -/
def setUrl (value : Option String) (s : ScState) : Except String ScState :=
  if hasRequestStarted s then
    .error "Can not change the URL after the request has already started."
  else
    match value with
    | none => .ok { s with url := none }
    | some v => .ok (setUrlCore (verbAdjust v s).1 (verbAdjust v s).2)

/-- The `title` setter (scenario.ts l.60). -/
def setTitle (newTitle : String) (s : ScState) : Except String ScState :=
  if hasExecuted s then
    .error "Can not change the scenario's title after execution has started."
  else .ok { s with title := newTitle }

/-- Which callback list `Scenario._pushCallbacks` appends to. -/
inductive CallbackList where
  | before
  | after
  | success
  | failure
  | finalL
  | pipe
deriving DecidableEq, Repr

/-- Display name used in the `_pushCallbacks` error message. -/
def CallbackList.displayName : CallbackList → String
  | .before => "before"
  | .after => "after"
  | .success => "success"
  | .failure => "failure"
  | .finalL => "finally"
  | .pipe => "pipe"

/-- `Scenario._pushCallbacks` (scenario.ts l.832): refuses to append a
lifecycle or pipe hook once the scenario has finished. -/
def pushCallbacksSc (which : CallbackList) (h : HookSpec) (s : ScState) : Except String ScState :=
  if hasFinished s then
    .error ("Can not add " ++ which.displayName ++ " callbacks after execution has finished.")
  else
    .ok (match which with
      | .before => { s with beforeCallbacks := s.beforeCallbacks ++ [h] }
      | .after => { s with afterCallbacks := s.afterCallbacks ++ [h] }
      | .success => { s with successCallbacks := s.successCallbacks ++ [h] }
      | .failure => { s with failureCallbacks := s.failureCallbacks ++ [h] }
      | .finalL => { s with finallyCallbacks := s.finallyCallbacks ++ [h] }
      | .pipe => { s with pipeCallbacks := s.pipeCallbacks ++ [h] })

/-- `Scenario._next` (scenario.ts l.1154): appends (or prepends) an
assertion phase, refusing once the scenario has finished. -/
def nextSc (p : PhaseSpec) (append : Bool) (s : ScState) : Except String ScState :=
  if !hasFinished s then
    .ok (if append then { s with nextCallbacks := s.nextCallbacks ++ [p] }
         else { s with nextCallbacks := p :: s.nextCallbacks })
  else .error "Scenario already finished."

/-- Fire one hook list in declaration order (`Scenario._fireCallbacks` via
`bluebird.mapSeries`): each hook first logs its message, when one is set
and non-empty, then runs; the status publications to subscribers carry no
state and are not modelled. -/
def fireCallbacksAux (k : HookKind) : List (Nat × HookSpec) → ScState → ScState × List Event
  | [], s => (s, [])
  | (i, h) :: rest, s =>
    let pre : ScState × List Event :=
      match h.message with
      | some m =>
        if m = "" then (s, [])
        else (pushLog (.comment m) s, [Event.logged (.comment m)])
      | none => (s, [])
    let tail := fireCallbacksAux k rest pre.1
    (tail.1, pre.2 ++ [Event.hook k i] ++ tail.2)

/-- Fire a hook list from its head, numbering hooks from zero. -/
def fireCallbacks (k : HookKind) (hooks : List HookSpec) (s : ScState) : ScState × List Event :=
  fireCallbacksAux k hooks.enum s

/-- `Scenario._fireBefore` (scenario.ts l.1092). -/
def fireBefore (s : ScState) : ScState × List Event :=
  fireCallbacks .before s.beforeCallbacks s

/-- `Scenario._fireAfter` (scenario.ts l.1100): stamps the finish time,
then fires the after hooks. -/
def fireAfter (now : Nat) (s : ScState) : ScState × List Event :=
  fireCallbacks .after s.afterCallbacks { s with timeScenarioFinished := some now }

/-- `Scenario._fireSuccess` (scenario.ts l.1106). -/
def fireSuccess (s : ScState) : ScState × List Event :=
  fireCallbacks .success s.successCallbacks s

/-- `Scenario._fireFailure` (scenario.ts l.1111): fires the failure hooks,
then logs the error message when one is given (and truthy). -/
def fireFailure (errorMessage : Option String) (s : ScState) : ScState × List Event :=
  let r := fireCallbacks .failure s.failureCallbacks s
  match errorMessage with
  | some m =>
    if m = "" then r
    else (pushLog (.comment m) r.1, r.2 ++ [Event.logged (.comment m)])
  | none => r

/-- `Scenario._fireFinally` (scenario.ts l.1117). -/
def fireFinally (s : ScState) : ScState × List Event :=
  fireCallbacks .finalH s.finallyCallbacks s

/-- `Scenario.executionDuration` rendered inside `Took ${...}ms`: a number
once both stamps exist, the string "null" otherwise (JS interpolates `null`
that way). -/
def executionDurationStr (s : ScState) : String :=
  match s.timeScenarioFinished, s.timeScenarioExecuted with
  | some f, some e => toString (f - e)
  | _, _ => "null"

/-- `errorDetails || errorMessage` from `_markScenarioCompleted`. -/
def detailsOrMessage (errorMessage : String) (errorDetails : Option String) : String :=
  match errorDetails with
  | some d => if d = "" then errorMessage else d
  | none => errorMessage

/-- `Scenario._markScenarioCompleted` (scenario.ts l.1051): runs only when
the scenario has not yet finished; fires the after hooks (stamping the
finish time), logs the duration comment, then — depending on whether an
execution error was passed in — fires the success hooks (when the scenario
passed), or logs a failing entry and fires the failure hooks; the finally
hooks always run last. -/
def markScenarioCompleted (errorMessage : Option String) (errorDetails : Option String)
    (now : Nat) (s : ScState) : ScState × List Event :=
  if hasFinished s then (s, [])
  else
    let r1 := fireAfter now s
    let dc := LogItem.comment ("Took " ++ executionDurationStr r1.1 ++ "ms")
    let s2 := pushLog dc r1.1
    let r3 : ScState × List Event :=
      match errorMessage with
      | none => if scHasPassed s2 then fireSuccess s2 else fireFailure none s2
      | some e =>
        let s2b := pushLog (.fail e errorDetails) s2
        let rf := fireFailure (some (detailsOrMessage e errorDetails)) s2b
        (rf.1, Event.logged (.fail e errorDetails) :: rf.2)
    let r4 := fireFinally r3.1
    (r4.1, r1.2 ++ [Event.logged dc] ++ r3.2 ++ r4.2)

/-- The comment text logged by `Scenario.skip`. -/
def skipCommentText (message : Option String) : String :=
  "Skipped" ++ (match message with
    | some m => if m = "" then "" else ": " ++ m
    | none => "")

/-- The body of `Scenario.skip` (scenario.ts l.573): stamps the execution
time, fires the before hooks, logs one skip comment, fires the after hooks,
then the finally hooks — never dispatching a fetch and never running an
assertion phase. -/
def skipRun (message : Option String) (now : Nat) (s : ScState) : ScState × List Event :=
  let s0 := { s with timeScenarioExecuted := some now }
  let r1 := fireBefore s0
  let sc := LogItem.comment (skipCommentText message)
  let s2 := pushLog sc r1.1
  let r3 := fireAfter now s2
  let r4 := fireFinally r3.1
  (r4.1, r1.2 ++ [Event.logged sc] ++ r3.2 ++ r4.2)

/-- `Scenario.skip` continued: the guard around `skipRun`. -/
def skipSc (message : Option String) (now : Nat) (s : ScState) :
    Except String (ScState × List Event) :=
  if hasExecuted s then
    .error "Can't skip Scenario since it already started executing."
  else .ok (skipRun message now s)

/-- `Scenario.cancel` (scenario.ts l.587): like `skip` without the skip
comment. -/
def cancelSc (now : Nat) (s : ScState) : Except String (ScState × List Event) :=
  if hasExecuted s then
    .error "Can't cancel Scenario since it already started executing."
  else
    let s0 := { s with timeScenarioExecuted := some now }
    let r1 := fireBefore s0
    let r3 := fireAfter now r1.1
    let r4 := fireFinally r3.1
    .ok (r4.1, r1.2 ++ r3.2 ++ r4.2)

/-- JS `String.prototype.replace` with a plain string pattern: replace the
first occurrence only (replacement `$`-patterns are not modelled; no claim
uses them). -/
def replaceFirstAux (pat repl l : List Char) : List Char :=
  match l with
  | [] => []
  | c :: rest =>
    if pat.isPrefixOf (c :: rest) then repl ++ (c :: rest).drop pat.length
    else c :: replaceFirstAux pat repl rest

/-- String-level wrapper for first-occurrence replacement. -/
def jsReplaceFirst (s pat repl : String) : String :=
  (replaceFirstAux pat.toList repl.toList s.toList).asString

/-- One step of the path-parameter loop in `execute` (scenario.ts l.626):
`this.url = this.url?.replace("{key}", String(value)) || null` — the result
goes through the URL setter, and a falsy result (null or the empty string)
stores null. -/
def applyOneParam (key value : String) (s : ScState) : Except String ScState :=
  match s.url with
  | none => setUrl none s
  | some u =>
    let r := jsReplaceFirst u ("\x7b" ++ key ++ "\x7d") value
    setUrl (if r = "" then none else some r) s

/-- The whole path-parameter loop of `execute`. -/
def applyPathParams (ps : List (String × String)) (s : ScState) : Except String ScState :=
  match ps with
  | [] => .ok s
  | (k, v) :: rest => do
    let s1 ← applyOneParam k v s
    applyPathParams rest s1

/-- `Scenario._executeMock` (scenario.ts l.1025): checks the URL and that
no request is in flight, then stamps the request start and dispatches the
local-file load. -/
def executeMock (now : Nat) (s : ScState) : Except String (ScState × List Event) :=
  if s.url = none then .error "Can not execute request with null URL."
  else if hasRequestStarted s then .error "Request has already started."
  else .ok ({ s with timeRequestStarted := some now }, [Event.fetchDispatched])

/-- `Scenario._executeRequest` (scenario.ts l.1005): checks the URL and
that no request is in flight, resolves the URL against the suite base
(through the URL setter), stamps the request start, seeds the final URL and
dispatches the fetch (browser or default adapter — both are a dispatch). -/
def executeRequest (now : Nat) (s : ScState) : Except String (ScState × List Event) :=
  if s.url = none then .error "Can not execute request with null URL."
  else if hasRequestStarted s then .error "Request has already started."
  else
    match buildUrl s.suiteBaseUrl s.url with
    | none => .error "TypeError: Invalid URL"
    | some u => do
      let s1 ← setUrl (some u.href) s
      let s2 := { s1 with timeRequestStarted := some now }
      .ok ({ s2 with finalUrl := s2.url }, [Event.fetchDispatched])

/-- `Scenario.execute` (scenario.ts l.614), split: the entry sequence once
the scenario is ready — stamp the execution time, fire the before hooks,
log the heading and, when a wait was lifted, the waited comment. -/
def executeEntry (now : Nat) (s2 : ScState) : ScState × List Event :=
  let s3 := { s2 with timeScenarioExecuted := some now }
  let r4 := fireBefore s3
  let hd := LogItem.heading r4.1.title
  let s5 := pushLog hd r4.1
  if s5.waitTime > 0 then
    let c := LogItem.comment ("Waited " ++ toString s5.waitTime ++ "ms")
    (pushLog c s5, r4.2 ++ [Event.logged hd, Event.logged c])
  else (s5, r4.2 ++ [Event.logged hd])

/-- The readiness check and dispatch of `execute`: when ready, run the
entry sequence and dispatch the request (mock or real). -/
def executeCore (now : Nat) (s2 : ScState) : Except String (ScState × List Event) :=
  if isReadyToExecute s2 then
    let en := executeEntry now s2
    match (if en.1.isMock then executeMock now en.1 else executeRequest now en.1) with
    | .error e => .error e
    | .ok r6 => .ok (r6.1, en.2 ++ r6.2)
  else .ok (s2, [])

/-- `Scenario.execute` continued: the guard, the path-parameter loop, the
clearing of the explicit wait, then the readiness check and dispatch. -/
def executeSc (pathParams : Option (List (String × String))) (now : Nat) (s : ScState) :
    Except String (ScState × List Event) :=
  if hasExecuted s then
    .error "Scenario has already started executing. Can not call execute again."
  else
    match pathParams with
    | some ps =>
      match applyPathParams ps s with
      | .error e => .error e
      | .ok s1 => executeCore now (scWait false now s1)
    | none => executeCore now (scWait false now s)

/-- Whether a phase both returns and settles in time with nothing rejecting
— the condition under which `Promise.mapSeries` proceeds to the next phase. -/
def phaseSucceeds (p : PhaseSpec) : Bool :=
  match p.behavior with
  | .throws _ => false
  | .returns settle rejects => decide (settle ≤ 30000) && rejects.isNone

/-- Whether a phase aborts the run the way claim C1 describes: its callback
throws, or the single 30000 ms phase timeout elapses first. -/
def phaseThrowsOrTimesOut (p : PhaseSpec) : Bool :=
  match p.behavior with
  | .throws _ => true
  | .returns settle _ => decide (30000 < settle)

/-- The error `Promise.mapSeries` rejects with at a failing phase: the
thrown value, the bluebird `TimeoutError` message, or the rejection. -/
def phaseError (p : PhaseSpec) : Option String :=
  match p.behavior with
  | .throws e => some e
  | .returns settle rejects =>
    if 30000 < settle then some "operation timed out" else rejects

/-- The `Promise.mapSeries` loop over the assertion phases
(scenario.ts l.906-933), split into helpers: `phasePre` logs the phase
label as a sub-heading before the callback runs. -/
def phasePre (p : PhaseSpec) (s : ScState) : ScState × List Event :=
  match p.message with
  | some m => (pushLog (.subHeading m) s, [Event.logged (.subHeading m)])
  | none => (s, [])

/-- The warning entries logged for the assertions a phase started but never
awaited (`context.incompleteAssertions.forEach` in `_processResponse`). -/
def phaseWarns (p : PhaseSpec) : List LogItem :=
  p.incompleteAssertions.map
    (fun n => LogItem.failWarning ("Incomplete assertion: " ++ n))

/-- Push the incomplete-assertion warnings of a phase onto the log. -/
def warnFold (p : PhaseSpec) (s : ScState) : ScState :=
  (phaseWarns p).foldl (fun acc it => pushLog it acc) s

/-- The `Promise.mapSeries` loop over the assertion phases
(scenario.ts l.906-933): each phase logs its sub-heading, runs its callback
(a synchronous throw rejects the whole series), logs a warning for every
incomplete assertion, then awaits the callback's return value, its
assertions and its sub-scenarios against one 30000 ms timeout.  Returns the
state, the trace, and the error the series rejected with, if any; phases
after a rejection never start. -/
def runPhasesAux (idx : Nat) (ps : List PhaseSpec) (s : ScState) :
    ScState × List Event × Option String :=
  match ps with
  | [] => (s, [], none)
  | p :: rest =>
    let pre := phasePre p s
    let ev0 := pre.2 ++ [Event.phaseStarted idx]
    match p.behavior with
    | .throws e => (pre.1, ev0, some e)
    | .returns settle rejects =>
      let s2 := warnFold p pre.1
      let ev2 := ev0 ++ (phaseWarns p).map Event.logged
      if 30000 < settle then (s2, ev2, some "operation timed out")
      else
        match rejects with
        | some e => (s2, ev2, some e)
        | none =>
          let r := runPhasesAux (idx + 1) rest s2
          (r.1, ev2 ++ r.2.1, r.2.2)

/-- The URL as interpolated into the "Loaded" log line (`null` when unset). -/
def urlDisplay (s : ScState) : String :=
  match s.url with
  | some u => u
  | none => "null"

/-- The passing log entry recording that the resource loaded. -/
def processLoadedItem (s : ScState) : LogItem :=
  .pass ("Loaded " ++ s.responseTypeName ++ " " ++ urlDisplay s)

/-- The state at entry of the phase loop: response-loaded time stamped and
the "Loaded" pass entry logged. -/
def processEntry (now : Nat) (s : ScState) : ScState :=
  pushLog (processLoadedItem { s with timeRequestLoaded := some now })
    { s with timeRequestLoaded := some now }

/-- `Scenario._processResponse` (scenario.ts l.893), modelled from the
point after the pipe hooks have run (l.895): stamps the response-loaded
time, logs the passing "Loaded" entry, runs the assertion phases in
declaration order, and marks the scenario completed — with the series
error, when one occurred. -/
def processResponse (now : Nat) (s : ScState) : ScState × List Event :=
  let s2 := processEntry now s
  let r := runPhasesAux 0 s2.nextCallbacks s2
  let rDone := markScenarioCompleted r.2.2 none now r.1
  (rDone.1,
   Event.logged (processLoadedItem { s with timeRequestLoaded := some now }) :: r.2.1 ++ rDone.2)

/-- The pure event trace of firing a (numbered) hook list — used to state
ordering properties about the traces of `skip` and of completion. -/
def hookSegmentAux (k : HookKind) : List (Nat × HookSpec) → List Event
  | [] => []
  | (i, h) :: rest =>
    (match h.message with
     | some m => if m = "" then [] else [Event.logged (.comment m)]
     | none => []) ++ Event.hook k i :: hookSegmentAux k rest

/-- The event trace of firing a hook list from index zero. -/
def hookSegment (k : HookKind) (hooks : List HookSpec) : List Event :=
  hookSegmentAux k hooks.enum

/-- The log entries a hook list contributes (its non-empty messages). -/
def hookLogItems (hooks : List HookSpec) : List LogItem :=
  hooks.filterMap (fun h => match h.message with
    | some m => if m = "" then none else some (LogItem.comment m)
    | none => none)

/-- The text of the duration comment `_markScenarioCompleted` logs when it
runs at time `now` on state `s`. -/
def durationCommentText (now : Nat) (s : ScState) : String :=
  "Took " ++ executionDurationStr { s with timeScenarioFinished := some now } ++ "ms"

/-- Whether an `Except` carries a success. -/
def exceptOk : Except String α → Bool
  | .ok _ => true
  | .error _ => false

/-- A blank scenario as `Suite.scenario` would create it, used to build the
concrete instances of the witness theorems. -/
def scBlank : ScState :=
  { title := "t"
    url := none
    methodVerb := "get"
    responseTypeName := "HTML Page"
    nextCallbacks := []
    beforeCallbacks := []
    afterCallbacks := []
    successCallbacks := []
    failureCallbacks := []
    finallyCallbacks := []
    pipeCallbacks := []
    log := []
    timeScenarioInitialized := 0
    timeScenarioExecuted := none
    timeRequestStarted := none
    timeRequestLoaded := none
    timeScenarioFinished := none
    waitToExecute := false
    waitTime := 0
    finalUrl := none
    suiteBaseUrl := none
    isMock := false }

/-- A scenario that has begun executing, with one succeeding phase, one
throwing phase and one further phase — the concrete instance of the C1
witness. -/
def c1WitnessState : ScState :=
  { scBlank with
      timeScenarioExecuted := some 1
      nextCallbacks :=
        [{ message := none, behavior := .returns 0 none, incompleteAssertions := [] },
         { message := none, behavior := .throws "boom", incompleteAssertions := [] },
         { message := none, behavior := .returns 0 none, incompleteAssertions := [] }] }

/-- A scenario that already started executing — the concrete instance of
the C2 witness. -/
def c2WitnessState : ScState :=
  { scBlank with timeScenarioExecuted := some 3, url := some "https://example.com/a" }

/-- A finished scenario with hooks registered — the concrete instance of
the C10 and C4 witnesses. -/
def finishedWitnessState : ScState :=
  { scBlank with
      timeScenarioExecuted := some 2
      timeScenarioFinished := some 6
      successCallbacks := [{ message := some "s" }]
      failureCallbacks := [{ message := none }]
      log := [LogItem.heading "t"] }

/-- An executing, not yet finished scenario with hooks in every list and a
clean log — the concrete instance of the C3 witness. -/
def c3WitnessState : ScState :=
  { scBlank with
      timeScenarioExecuted := some 2
      afterCallbacks := [{ message := some "afterHook" }]
      successCallbacks := [{ message := none }]
      failureCallbacks := [{ message := none }]
      finallyCallbacks := [{ message := some "cleanup" }] }

/-- A not-yet-executed scenario with hooks in every lifecycle list — the
concrete instance of the C9 witness. -/
def c9WitnessState : ScState :=
  { scBlank with
      beforeCallbacks := [{ message := some "pre" }]
      afterCallbacks := [{ message := none }]
      finallyCallbacks := [{ message := none }]
      nextCallbacks := [{ message := none, behavior := .returns 0 none, incompleteAssertions := [] }] }

/-- A scenario in the window after execution has begun but before the
request has started (as during a `before` hook) — the concrete instance of
the C4 counterexample. -/
def c4CounterState : ScState :=
  { scBlank with timeScenarioExecuted := some 5, url := some "https://a.com/x" }

/-- A scenario with a target but no assertion phases — the concrete
instance of the C5 witness. -/
def c5WitnessState : ScState :=
  { scBlank with url := some "https://example.com/a" }

/-- A scenario whose target holds an unresolved path parameter — the
concrete instance of the C6 witness. -/
def c6WitnessState : ScState :=
  { scBlank with
      url := some "https://example.com/items/\x7bid\x7d"
      nextCallbacks := [{ message := none, behavior := .returns 0 none, incompleteAssertions := [] }] }

/-! ## Supporting lemmas -/

theorem fireCallbacksAux_fst (k : HookKind) (l : List (Nat × HookSpec)) (s : ScState) :
    (fireCallbacksAux k l s).1 = { s with log := s.log ++ hookLogItems (l.map Prod.snd) } := by
  induction l generalizing s with
  | nil => simp [fireCallbacksAux, hookLogItems]
  | cons p rest ih =>
    obtain ⟨i, h⟩ := p
    match hm : h.message with
    | none =>
      simp [fireCallbacksAux, hookLogItems, hm, ih]
    | some m =>
      by_cases hme : m = ""
      · simp [fireCallbacksAux, hookLogItems, hm, hme, ih]
      · simp [fireCallbacksAux, hookLogItems, hm, hme, ih, pushLog]

theorem fireCallbacksAux_snd (k : HookKind) (l : List (Nat × HookSpec)) (s : ScState) :
    (fireCallbacksAux k l s).2 = hookSegmentAux k l := by
  induction l generalizing s with
  | nil => simp [fireCallbacksAux, hookSegmentAux]
  | cons p rest ih =>
    obtain ⟨i, h⟩ := p
    match hm : h.message with
    | none =>
      simp [fireCallbacksAux, hookSegmentAux, hm, ih]
    | some m =>
      by_cases hme : m = ""
      · simp [fireCallbacksAux, hookSegmentAux, hm, hme, ih]
      · simp [fireCallbacksAux, hookSegmentAux, hm, hme, ih]

theorem fireCallbacks_fst (k : HookKind) (hooks : List HookSpec) (s : ScState) :
    (fireCallbacks k hooks s).1 = { s with log := s.log ++ hookLogItems hooks } := by
  rw [fireCallbacks, fireCallbacksAux_fst, List.enum_map_snd]

theorem fireCallbacks_snd (k : HookKind) (hooks : List HookSpec) (s : ScState) :
    (fireCallbacks k hooks s).2 = hookSegment k hooks := by
  rw [fireCallbacks, fireCallbacksAux_snd, hookSegment]

theorem hookLogItems_no_fail (hooks : List HookSpec) :
    (hookLogItems hooks).any LogItem.isFail = false := by
  induction hooks with
  | nil => simp [hookLogItems]
  | cons h rest ih =>
    match hm : h.message with
    | none => simpa [hookLogItems, hm] using ih
    | some m =>
      by_cases hme : m = ""
      · simpa [hookLogItems, hm, hme] using ih
      · simpa [hookLogItems, hm, hme, LogItem.isFail] using ih

theorem hookSegmentAux_shapes (k : HookKind) (l : List (Nat × HookSpec)) (ev : Event)
    (hev : ev ∈ hookSegmentAux k l) :
    (∃ i, ev = Event.hook k i) ∨ (∃ m, ev = Event.logged (.comment m)) := by
  induction l with
  | nil => simp [hookSegmentAux] at hev
  | cons p rest ih =>
    obtain ⟨i, h⟩ := p
    match hm : h.message with
    | none =>
      simp [hookSegmentAux, hm] at hev
      rcases hev with hev | hev
      · exact Or.inl ⟨i, hev⟩
      · exact ih hev
    | some m =>
      by_cases hme : m = ""
      · simp [hookSegmentAux, hm, hme] at hev
        rcases hev with hev | hev
        · exact Or.inl ⟨i, hev⟩
        · exact ih hev
      · simp [hookSegmentAux, hm, hme] at hev
        rcases hev with hev | hev | hev
        · exact Or.inr ⟨m, hev⟩
        · exact Or.inl ⟨i, hev⟩
        · exact ih hev

theorem hookSegment_shapes (k : HookKind) (hooks : List HookSpec) (ev : Event)
    (hev : ev ∈ hookSegment k hooks) :
    (∃ i, ev = Event.hook k i) ∨ (∃ m, ev = Event.logged (.comment m)) :=
  hookSegmentAux_shapes k hooks.enum ev hev

theorem scWait_waitToExecute (b : Bool) (now : Nat) (s : ScState) :
    (scWait b now s).waitToExecute = b := by
  unfold scWait; split <;> rfl

theorem scWait_nextCallbacks (b : Bool) (now : Nat) (s : ScState) :
    (scWait b now s).nextCallbacks = s.nextCallbacks := by
  unfold scWait; split <;> rfl

theorem scWait_timeScenarioExecuted (b : Bool) (now : Nat) (s : ScState) :
    (scWait b now s).timeScenarioExecuted = s.timeScenarioExecuted := by
  unfold scWait; split <;> rfl

theorem scWait_timeRequestStarted (b : Bool) (now : Nat) (s : ScState) :
    (scWait b now s).timeRequestStarted = s.timeRequestStarted := by
  unfold scWait; split <;> rfl

theorem scWait_url (b : Bool) (now : Nat) (s : ScState) :
    (scWait b now s).url = s.url := by
  unfold scWait; split <;> rfl

theorem scWait_suiteBaseUrl (b : Bool) (now : Nat) (s : ScState) :
    (scWait b now s).suiteBaseUrl = s.suiteBaseUrl := by
  unfold scWait; split <;> rfl

theorem scWait_isMock (b : Bool) (now : Nat) (s : ScState) :
    (scWait b now s).isMock = s.isMock := by
  unfold scWait; split <;> rfl

/-- Fields of the state after the verb-prefix handling: only the method can
change. -/
theorem verbAdjust_fields (v : String) (s : ScState) :
    (verbAdjust v s).1.nextCallbacks = s.nextCallbacks ∧
    (verbAdjust v s).1.timeScenarioExecuted = s.timeScenarioExecuted ∧
    (verbAdjust v s).1.timeRequestStarted = s.timeRequestStarted ∧
    (verbAdjust v s).1.suiteBaseUrl = s.suiteBaseUrl ∧
    (verbAdjust v s).1.isMock = s.isMock ∧
    (verbAdjust v s).1.log = s.log ∧
    (verbAdjust v s).1.timeScenarioFinished = s.timeScenarioFinished := by
  unfold verbAdjust
  cases hm : execVerbMatch v with
  | none => exact ⟨rfl, rfl, rfl, rfl, rfl, rfl, rfl⟩
  | some pr =>
    obtain ⟨verb, rest⟩ := pr
    by_cases hv : jsToLowerCase verb ∈ httpMethodVerbAllowedValues
    · simp [hv]
    · simp [hv]

/-- Fields of `setUrlCore`: only the URL and the wait state can change. -/
theorem setUrlCore_fields (s : ScState) (v : String) :
    (setUrlCore s v).nextCallbacks = s.nextCallbacks ∧
    (setUrlCore s v).timeScenarioExecuted = s.timeScenarioExecuted ∧
    (setUrlCore s v).timeRequestStarted = s.timeRequestStarted ∧
    (setUrlCore s v).suiteBaseUrl = s.suiteBaseUrl ∧
    (setUrlCore s v).isMock = s.isMock ∧
    (setUrlCore s v).log = s.log ∧
    (setUrlCore s v).timeScenarioFinished = s.timeScenarioFinished ∧
    (setUrlCore s v).url = some v := by
  unfold setUrlCore
  by_cases hp : hasPathParam v <;> simp [hp] <;>
    refine ⟨?_, ?_, ?_, ?_, ?_, ?_, ?_⟩ <;> (unfold scWait; split <;> rfl)

/-- Fields of the state produced by a successful URL-setter call: everything
except the URL, the method and the wait flag is untouched. -/
theorem setUrl_ok_spec (v : Option String) (s t : ScState)
    (h : setUrl v s = .ok t) :
    t.nextCallbacks = s.nextCallbacks ∧
    t.timeScenarioExecuted = s.timeScenarioExecuted ∧
    t.timeRequestStarted = s.timeRequestStarted ∧
    t.suiteBaseUrl = s.suiteBaseUrl ∧
    t.isMock = s.isMock ∧
    t.log = s.log ∧
    t.timeScenarioFinished = s.timeScenarioFinished := by
  unfold setUrl at h
  by_cases hreq : hasRequestStarted s
  · simp [hreq] at h
  · simp [hreq] at h
    match v with
    | none =>
      simp at h
      subst h
      exact ⟨rfl, rfl, rfl, rfl, rfl, rfl, rfl⟩
    | some u =>
      simp at h
      subst h
      obtain ⟨a1, a2, a3, a4, a5, a6, a7⟩ := verbAdjust_fields u s
      obtain ⟨b1, b2, b3, b4, b5, b6, b7, b8⟩ :=
        setUrlCore_fields (verbAdjust u s).1 (verbAdjust u s).2
      exact ⟨b1.trans a1, b2.trans a2, b3.trans a3, b4.trans a4, b5.trans a5,
        b6.trans a6, b7.trans a7⟩

/-- The URL setter succeeds whenever the request has not started. -/
theorem setUrl_ok_of_not_started (v : Option String) (s : ScState)
    (hreq : hasRequestStarted s = false) :
    ∃ t, setUrl v s = .ok t := by
  unfold setUrl
  simp [hreq]
  match v with
  | none => exact ⟨_, rfl⟩
  | some u => exact ⟨_, rfl⟩

/-- Fields of the state after one path-parameter application. -/
theorem applyOneParam_ok_spec (k v : String) (s t : ScState)
    (h : applyOneParam k v s = .ok t) :
    t.nextCallbacks = s.nextCallbacks ∧
    t.timeScenarioExecuted = s.timeScenarioExecuted ∧
    t.timeRequestStarted = s.timeRequestStarted ∧
    t.suiteBaseUrl = s.suiteBaseUrl ∧
    t.isMock = s.isMock ∧
    t.log = s.log ∧
    t.timeScenarioFinished = s.timeScenarioFinished := by
  unfold applyOneParam at h
  match hu : s.url with
  | none => rw [hu] at h; exact setUrl_ok_spec none s t h
  | some u => rw [hu] at h; exact setUrl_ok_spec _ s t h

/-- Fields of the state after the whole path-parameter loop. -/
theorem applyPathParams_ok_spec (ps : List (String × String)) (s t : ScState)
    (h : applyPathParams ps s = .ok t) :
    t.nextCallbacks = s.nextCallbacks ∧
    t.timeScenarioExecuted = s.timeScenarioExecuted ∧
    t.timeRequestStarted = s.timeRequestStarted ∧
    t.suiteBaseUrl = s.suiteBaseUrl ∧
    t.isMock = s.isMock ∧
    t.log = s.log ∧
    t.timeScenarioFinished = s.timeScenarioFinished := by
  induction ps generalizing s with
  | nil =>
    unfold applyPathParams at h
    simp at h
    subst h
    exact ⟨rfl, rfl, rfl, rfl, rfl, rfl, rfl⟩
  | cons p rest ih =>
    obtain ⟨k, v⟩ := p
    unfold applyPathParams at h
    match h1 : applyOneParam k v s with
    | .error e =>
      rw [h1] at h
      exact Except.noConfusion h
    | .ok s1 =>
      rw [h1] at h
      replace h : applyPathParams rest s1 = .ok t := h
      obtain ⟨a1, a2, a3, a4, a5, a6, a7⟩ := applyOneParam_ok_spec k v s s1 h1
      obtain ⟨b1, b2, b3, b4, b5, b6, b7⟩ := ih s1 h
      exact ⟨b1.trans a1, b2.trans a2, b3.trans a3, b4.trans a4, b5.trans a5,
        b6.trans a6, b7.trans a7⟩

/-- The path-parameter loop succeeds whenever the request has not started. -/
theorem applyPathParams_ok_of_not_started (ps : List (String × String)) (s : ScState)
    (hreq : s.timeRequestStarted = none) :
    ∃ t, applyPathParams ps s = .ok t := by
  induction ps generalizing s with
  | nil => exact ⟨s, rfl⟩
  | cons p rest ih =>
    obtain ⟨k, v⟩ := p
    have hreqb : hasRequestStarted s = false := by simp [hasRequestStarted, hreq]
    have h1 : ∃ s1, applyOneParam k v s = .ok s1 := by
      unfold applyOneParam
      match hu : s.url with
      | none => exact setUrl_ok_of_not_started none s hreqb
      | some u => exact setUrl_ok_of_not_started _ s hreqb
    obtain ⟨s1, h1⟩ := h1
    have hreq1 : s1.timeRequestStarted = none :=
      (applyOneParam_ok_spec k v s s1 h1).2.2.1.trans hreq
    obtain ⟨t, ht⟩ := ih s1 hreq1
    exact ⟨t, by unfold applyPathParams; rw [h1]; exact ht⟩

/-- `scHasFailed` over an extended log. -/
theorem scHasFailed_append (s : ScState) (items : List LogItem) :
    scHasFailed { s with log := s.log ++ items } =
      (scHasFailed s || items.any LogItem.isFail) := by
  simp [scHasFailed, List.any_append]


/-- `fireFailure` appends only the failure-hook messages and possibly the
error comment to the log, leaving every other field alone. -/
theorem fireFailure_fst (em : Option String) (s : ScState) :
    ∃ extra, (fireFailure em s).1 =
      { s with log := s.log ++ (hookLogItems s.failureCallbacks ++ extra) } := by
  match em with
  | none =>
    refine ⟨[], ?_⟩
    simp [fireFailure, fireCallbacks_fst]
  | some m =>
    by_cases hm : m = ""
    · refine ⟨[], ?_⟩
      simp [fireFailure, hm, fireCallbacks_fst]
    · refine ⟨[LogItem.comment m], ?_⟩
      simp [fireFailure, hm, fireCallbacks_fst, pushLog]

/-- The state effect of `_markScenarioCompleted` when the scenario had not
yet finished: the finish time is stamped, the execution time is untouched,
and — when an execution error is passed — the failing log entry is present
in the final log. -/
theorem markScenarioCompleted_state (e : Option String) (d : Option String)
    (now : Nat) (s : ScState) (h : hasFinished s = false) :
    (markScenarioCompleted e d now s).1.timeScenarioFinished = some now ∧
    (markScenarioCompleted e d now s).1.timeScenarioExecuted = s.timeScenarioExecuted ∧
    (∀ msg, e = some msg → LogItem.fail msg d ∈ (markScenarioCompleted e d now s).1.log) := by
  match e with
  | none =>
    refine ⟨?_, ?_, fun msg hmsg => Option.noConfusion hmsg⟩ <;>
    · simp only [markScenarioCompleted, if_neg (by simp [h] : ¬ hasFinished s = true),
        fireAfter, fireSuccess, fireFinally, fireCallbacks_fst, pushLog]
      split
      · simp [fireCallbacks_fst]
      · obtain ⟨extra, hex⟩ := fireFailure_fst none _
        rw [hex]
        try simp [fireCallbacks_fst]
  | some msg0 =>
    obtain ⟨extra, hex⟩ := fireFailure_fst (some (detailsOrMessage msg0 d)) _
    refine ⟨?_, ?_, ?_⟩
    · simp only [markScenarioCompleted, if_neg (by simp [h] : ¬ hasFinished s = true),
        fireAfter, fireFinally, fireCallbacks_fst, pushLog]
      rw [hex]
      try simp [fireCallbacks_fst]
    · simp only [markScenarioCompleted, if_neg (by simp [h] : ¬ hasFinished s = true),
        fireAfter, fireFinally, fireCallbacks_fst, pushLog]
      rw [hex]
      try simp [fireCallbacks_fst]
    · intro msg hmsg
      injection hmsg with hmsg
      subst hmsg
      simp only [markScenarioCompleted, if_neg (by simp [h] : ¬ hasFinished s = true),
        fireAfter, fireFinally, fireCallbacks_fst, pushLog]
      rw [hex]
      simp [fireCallbacks_fst]

/-- The pass/fail classification read inside `_markScenarioCompleted`: the
after hooks and the duration comment add no failing entry, so it is the one
derived from the log as it stood at completion. -/
theorem scHasPassed_shape (s : ScState) (now : Nat) (L : List LogItem)
    (hL : L.any LogItem.isFail = false) :
    scHasPassed { s with timeScenarioFinished := some now, log := s.log ++ L } =
      (hasExecuted s && !scHasFailed s) := by
  simp [scHasPassed, hasFinished, hasExecuted, scHasFailed, List.any_append, hL]

/-- Appending a comment preserves the absence of failing entries. -/
theorem comment_append_no_fail (A : List LogItem) (hA : A.any LogItem.isFail = false)
    (m : String) : (A ++ [LogItem.comment m]).any LogItem.isFail = false := by
  simp [List.any_append, hA, LogItem.isFail]

/-- The event trace of `_markScenarioCompleted` when the scenario had not
yet finished: after hooks, the duration comment, then exactly one of the
success or failure hook lists — success exactly when no execution error was
passed and the log-derived classification is "passed" — and the finally
hooks last. -/
theorem markScenarioCompleted_trace (e : Option String) (d : Option String)
    (now : Nat) (s : ScState) (h : hasFinished s = false) :
    (markScenarioCompleted e d now s).2 =
      hookSegment .after s.afterCallbacks
      ++ [Event.logged (.comment (durationCommentText now s))]
      ++ (match e with
          | none =>
            if hasExecuted s && !scHasFailed s then hookSegment .success s.successCallbacks
            else hookSegment .failure s.failureCallbacks
          | some msg =>
            Event.logged (.fail msg d) ::
              (hookSegment .failure s.failureCallbacks ++
               (if detailsOrMessage msg d = "" then []
                else [Event.logged (.comment (detailsOrMessage msg d))])))
      ++ hookSegment .finalH s.finallyCallbacks := by
  match e with
  | none =>
    simp only [markScenarioCompleted, if_neg (by simp [h] : ¬ hasFinished s = true),
      fireAfter, fireSuccess, fireFinally, fireFailure, fireCallbacks_fst,
      fireCallbacks_snd, pushLog]
    split
    case isTrue hc =>
      rw [List.append_assoc,
        scHasPassed_shape s now _ (comment_append_no_fail _ (hookLogItems_no_fail _) _)] at hc
      simp [hc, fireCallbacks_fst, fireCallbacks_snd, durationCommentText, executionDurationStr]
    case isFalse hc =>
      rw [List.append_assoc,
        scHasPassed_shape s now _ (comment_append_no_fail _ (hookLogItems_no_fail _) _)] at hc
      simp [hc, fireCallbacks_fst, fireCallbacks_snd, durationCommentText, executionDurationStr]
  | some msg =>
    simp only [markScenarioCompleted, if_neg (by simp [h] : ¬ hasFinished s = true),
      fireAfter, fireFinally, fireFailure, fireCallbacks_fst,
      fireCallbacks_snd, pushLog]
    by_cases hd : detailsOrMessage msg d = ""
    · simp [hd, fireCallbacks_fst, fireCallbacks_snd, durationCommentText, executionDurationStr]
    · simp [hd, fireCallbacks_fst, fireCallbacks_snd, pushLog, durationCommentText,
        executionDurationStr]

/-- Folding `pushLog` appends the items in order. -/
theorem foldl_pushLog (items : List LogItem) (s : ScState) :
    items.foldl (fun acc it => pushLog it acc) s = { s with log := s.log ++ items } := by
  induction items generalizing s with
  | nil => simp
  | cons it rest ih =>
    rw [List.foldl_cons, ih]
    simp [pushLog]

/-- `phasePre` only appends to the log. -/
theorem phasePre_fst (p : PhaseSpec) (s : ScState) :
    ∃ items, (phasePre p s).1 = { s with log := s.log ++ items } := by
  unfold phasePre
  match p.message with
  | none => exact ⟨[], by simp⟩
  | some m => exact ⟨[.subHeading m], by simp [pushLog]⟩

/-- The trace `phasePre` contributes is logged entries only. -/
theorem phasePre_snd (p : PhaseSpec) (s : ScState) (ev : Event)
    (hev : ev ∈ (phasePre p s).2) : ∃ it, ev = Event.logged it := by
  unfold phasePre at hev
  match hm : p.message with
  | none => simp [hm] at hev
  | some m =>
    simp [hm] at hev
    exact ⟨_, hev⟩

/-- `phasePre`'s trace does not depend on the state. -/
theorem phasePre_snd_const (p : PhaseSpec) (s t : ScState) :
    (phasePre p s).2 = (phasePre p t).2 := by
  unfold phasePre
  match p.message with
  | none => rfl
  | some m => rfl

/-- `warnFold` only appends to the log. -/
theorem warnFold_fst (p : PhaseSpec) (s : ScState) :
    warnFold p s = { s with log := s.log ++ phaseWarns p } := by
  unfold warnFold
  rw [foldl_pushLog]

/-- One unfolding of the phase loop: the state component. -/
theorem runPhasesAux_cons_fst (idx : Nat) (p : PhaseSpec) (rest : List PhaseSpec) (s : ScState) :
    (runPhasesAux idx (p :: rest) s).1 =
      (match p.behavior with
       | .throws _ => (phasePre p s).1
       | .returns _ _ =>
         if phaseSucceeds p then (runPhasesAux (idx + 1) rest (warnFold p (phasePre p s).1)).1
         else warnFold p (phasePre p s).1) := by
  conv_lhs => unfold runPhasesAux
  match hb : p.behavior with
  | .throws e => simp
  | .returns settle rejects =>
    by_cases hs : 30000 < settle
    · have : phaseSucceeds p = false := by simp [phaseSucceeds, hb]; omega
      simp [hs, this]
    · match rejects with
      | some e =>
        have : phaseSucceeds p = false := by simp [phaseSucceeds, hb]
        simp [hs, this]
      | none =>
        have : phaseSucceeds p = true := by simp [phaseSucceeds, hb]; omega
        simp [hs, this]

/-- One unfolding of the phase loop: the trace component. -/
theorem runPhasesAux_cons_trace (idx : Nat) (p : PhaseSpec) (rest : List PhaseSpec) (s : ScState) :
    (runPhasesAux idx (p :: rest) s).2.1 =
      (phasePre p s).2 ++ [Event.phaseStarted idx] ++
      (match p.behavior with
       | .throws _ => []
       | .returns _ _ => (phaseWarns p).map Event.logged) ++
      (if phaseSucceeds p then
        (runPhasesAux (idx + 1) rest (warnFold p (phasePre p s).1)).2.1
       else []) := by
  conv_lhs => unfold runPhasesAux
  match hb : p.behavior with
  | .throws e =>
    have : phaseSucceeds p = false := by simp [phaseSucceeds, hb]
    simp [this]
  | .returns settle rejects =>
    by_cases hs : 30000 < settle
    · have : phaseSucceeds p = false := by simp [phaseSucceeds, hb]; omega
      simp [hs, this]
    · match rejects with
      | some e =>
        have : phaseSucceeds p = false := by simp [phaseSucceeds, hb]
        simp [hs, this]
      | none =>
        have : phaseSucceeds p = true := by simp [phaseSucceeds, hb]; omega
        simp [hs, this]

/-- One unfolding of the phase loop: the error component. -/
theorem runPhasesAux_cons_err (idx : Nat) (p : PhaseSpec) (rest : List PhaseSpec) (s : ScState) :
    (runPhasesAux idx (p :: rest) s).2.2 =
      (if phaseSucceeds p then (runPhasesAux (idx + 1) rest (warnFold p (phasePre p s).1)).2.2
       else phaseError p) := by
  conv_lhs => unfold runPhasesAux
  match hb : p.behavior with
  | .throws e =>
    have : phaseSucceeds p = false := by simp [phaseSucceeds, hb]
    simp [this, phaseError, hb]
  | .returns settle rejects =>
    by_cases hs : 30000 < settle
    · have : phaseSucceeds p = false := by simp [phaseSucceeds, hb]; omega
      simp [hs, this, phaseError, hb]
    · match rejects with
      | some e =>
        have : phaseSucceeds p = false := by simp [phaseSucceeds, hb]
        simp [hs, this, phaseError, hb]
      | none =>
        have : phaseSucceeds p = true := by simp [phaseSucceeds, hb]; omega
        simp [hs, this, phaseError, hb]

/-- The phase loop only appends to the log. -/
theorem runPhasesAux_state (i : Nat) (ps : List PhaseSpec) (s : ScState) :
    ∃ items, (runPhasesAux i ps s).1 = { s with log := s.log ++ items } := by
  induction ps generalizing i s with
  | nil => exact ⟨[], by simp [runPhasesAux]⟩
  | cons p rest ih =>
    rw [runPhasesAux_cons_fst]
    obtain ⟨A, hA⟩ := phasePre_fst p s
    match p.behavior with
    | .throws e => exact ⟨A, by simp [hA]⟩
    | .returns settle rejects =>
      by_cases hsucc : phaseSucceeds p
      · obtain ⟨B, hB⟩ := ih (i + 1) (warnFold p (phasePre p s).1)
        refine ⟨A ++ phaseWarns p ++ B, ?_⟩
        simp only [hsucc, if_true]
        rw [hB, warnFold_fst, hA]
        simp
      · refine ⟨A ++ phaseWarns p, ?_⟩
        simp only [hsucc, if_false]
        rw [warnFold_fst, hA]
        simp

/-- Every event in the phase loop's trace is a phase start or a log write. -/
theorem runPhasesAux_shapes (i : Nat) (ps : List PhaseSpec) (s : ScState) (ev : Event)
    (hev : ev ∈ (runPhasesAux i ps s).2.1) :
    (∃ j, ev = Event.phaseStarted j) ∨ (∃ it, ev = Event.logged it) := by
  induction ps generalizing i s with
  | nil => simp [runPhasesAux] at hev
  | cons p rest ih =>
    rw [runPhasesAux_cons_trace] at hev
    simp only [List.mem_append] at hev
    rcases hev with ((hev | hev) | hev) | hev
    · exact Or.inr (phasePre_snd p s ev hev)
    · simp at hev
      exact Or.inl ⟨i, hev⟩
    · match hb : p.behavior with
      | .throws e =>
        rw [hb] at hev
        simp at hev
      | .returns settle rejects =>
        rw [hb] at hev
        simp only [List.mem_map] at hev
        obtain ⟨it, _, hit⟩ := hev
        exact Or.inr ⟨it, hit.symm⟩
    · by_cases hsucc : phaseSucceeds p
      · rw [if_pos hsucc] at hev
        exact ih (i + 1) _ hev
      · rw [if_neg hsucc] at hev
        simp at hev

/-- A phase start appears in the loop's trace only for an index in range and
only when every earlier phase settled successfully within its timeout: the
loop is strictly sequential. -/
theorem runPhasesAux_started (i : Nat) (ps : List PhaseSpec) (s : ScState) (j : Nat)
    (hj : Event.phaseStarted j ∈ (runPhasesAux i ps s).2.1) :
    i ≤ j ∧ j - i < ps.length ∧ (ps.take (j - i)).all phaseSucceeds = true := by
  induction ps generalizing i s with
  | nil => simp [runPhasesAux] at hj
  | cons p rest ih =>
    rw [runPhasesAux_cons_trace] at hj
    simp only [List.mem_append] at hj
    rcases hj with ((hj | hj) | hj) | hj
    · obtain ⟨it, hit⟩ := phasePre_snd p s _ hj
      exact Event.noConfusion hit
    · simp at hj
      subst hj
      simp
    · match hb : p.behavior with
      | .throws e =>
        rw [hb] at hj
        simp at hj
      | .returns settle rejects =>
        rw [hb] at hj
        simp only [List.mem_map] at hj
        obtain ⟨it, _, hit⟩ := hj
        exact Event.noConfusion hit
    · by_cases hsucc : phaseSucceeds p
      · rw [if_pos hsucc] at hj
        obtain ⟨h1, h2, h3⟩ := ih (i + 1) _ hj
        refine ⟨by omega, by simp; omega, ?_⟩
        have hji : j - i = (j - (i + 1)) + 1 := by omega
        rw [hji, List.take_succ_cons, List.all_cons, hsucc]
        simpa using h3
      · rw [if_neg hsucc] at hj
        simp at hj

/-- When the phases before index `kk` all succeed and phase `kk` throws or
times out, no phase after `kk` ever starts and the series rejects. -/
theorem runPhasesAux_stops (i : Nat) (ps : List PhaseSpec) (s : ScState) (kk : Nat)
    (hk : kk < ps.length)
    (hpre : (ps.take kk).all phaseSucceeds = true)
    (hfail : phaseThrowsOrTimesOut (ps.get ⟨kk, hk⟩) = true) :
    (∀ j, Event.phaseStarted j ∈ (runPhasesAux i ps s).2.1 → j ≤ i + kk) ∧
    (∃ msg, (runPhasesAux i ps s).2.2 = some msg) := by
  induction ps generalizing i s kk with
  | nil => simp at hk
  | cons p rest ih =>
    have hnosucc : phaseThrowsOrTimesOut p = true → phaseSucceeds p = false := by
      intro h
      match hb : p.behavior with
      | .throws e => simp [phaseSucceeds, hb]
      | .returns settle rejects =>
        rw [phaseThrowsOrTimesOut, hb] at h
        simp at h
        simp [phaseSucceeds, hb]
        omega
    match kk with
    | 0 =>
      simp only [List.get] at hfail
      have hps : phaseSucceeds p = false := hnosucc hfail
      constructor
      · intro j hj
        rw [runPhasesAux_cons_trace] at hj
        simp only [List.mem_append] at hj
        rcases hj with ((hj | hj) | hj) | hj
        · obtain ⟨it, hit⟩ := phasePre_snd p s _ hj
          exact Event.noConfusion hit
        · simp at hj
          omega
        · match hb : p.behavior with
          | .throws e =>
            rw [hb] at hj
            simp at hj
          | .returns settle rejects =>
            rw [hb] at hj
            simp only [List.mem_map] at hj
            obtain ⟨it, _, hit⟩ := hj
            exact Event.noConfusion hit
        · rw [if_neg (by simp [hps])] at hj
          simp at hj
      · rw [runPhasesAux_cons_err, if_neg (by simp [hps])]
        match hb : p.behavior with
        | .throws e => exact ⟨e, by simp [phaseError, hb]⟩
        | .returns settle rejects =>
          rw [phaseThrowsOrTimesOut, hb] at hfail
          simp at hfail
          exact ⟨"operation timed out", by simp [phaseError, hb, hfail]⟩
    | kk + 1 =>
      rw [List.take_succ_cons, List.all_cons] at hpre
      simp only [Bool.and_eq_true] at hpre
      obtain ⟨hp1, hp2⟩ := hpre
      simp only [List.length_cons] at hk
      have hk2 : kk < rest.length := by omega
      have hfail2 : phaseThrowsOrTimesOut (rest.get ⟨kk, hk2⟩) = true := by
        simpa using hfail
      obtain ⟨ihA, ihB⟩ := ih (i + 1) (warnFold p (phasePre p s).1) kk hk2 hp2 hfail2
      constructor
      · intro j hj
        rw [runPhasesAux_cons_trace] at hj
        simp only [List.mem_append] at hj
        rcases hj with ((hj | hj) | hj) | hj
        · obtain ⟨it, hit⟩ := phasePre_snd p s _ hj
          exact Event.noConfusion hit
        · simp at hj
          omega
        · match hb : p.behavior with
          | .throws e =>
            rw [hb] at hj
            simp at hj
          | .returns settle rejects =>
            rw [hb] at hj
            simp only [List.mem_map] at hj
            obtain ⟨it, _, hit⟩ := hj
            exact Event.noConfusion hit
        · rw [if_pos hp1] at hj
          have := ihA j hj
          omega
      · rw [runPhasesAux_cons_err, if_pos hp1]
        exact ihB

/-- Shape of every event in the completion routine's trace: an after,
failure or finally hook, a success hook (only without an execution error),
or a log write. -/
theorem markTrace_shapes (e d : Option String) (now : Nat) (t : ScState)
    (h : hasFinished t = false) (ev : Event)
    (hmem : ev ∈ (markScenarioCompleted e d now t).2) :
    (∃ i, ev = Event.hook HookKind.after i) ∨
    (∃ i, ev = Event.hook HookKind.failure i) ∨
    (∃ i, ev = Event.hook HookKind.finalH i) ∨
    ((∃ i, ev = Event.hook HookKind.success i) ∧ e = none) ∨
    (∃ it, ev = Event.logged it) := by
  rw [markScenarioCompleted_trace e d now t h] at hmem
  rcases e with _ | msg
  · simp only [List.mem_append] at hmem
    rcases hmem with ((hmem | hmem) | hmem) | hmem
    · rcases hookSegment_shapes _ _ _ hmem with ⟨i, hx⟩ | ⟨m, hx⟩
      · exact Or.inl ⟨i, hx⟩
      · exact Or.inr (Or.inr (Or.inr (Or.inr ⟨_, hx⟩)))
    · simp at hmem
      exact Or.inr (Or.inr (Or.inr (Or.inr ⟨_, hmem⟩)))
    · by_cases hc : (hasExecuted t && !scHasFailed t) = true
      · simp only [hc, if_true] at hmem
        rcases hookSegment_shapes _ _ _ hmem with ⟨i, hx⟩ | ⟨m, hx⟩
        · exact Or.inr (Or.inr (Or.inr (Or.inl ⟨⟨i, hx⟩, rfl⟩)))
        · exact Or.inr (Or.inr (Or.inr (Or.inr ⟨_, hx⟩)))
      · simp only [hc, if_false] at hmem
        rcases hookSegment_shapes _ _ _ hmem with ⟨i, hx⟩ | ⟨m, hx⟩
        · exact Or.inr (Or.inl ⟨i, hx⟩)
        · exact Or.inr (Or.inr (Or.inr (Or.inr ⟨_, hx⟩)))
    · rcases hookSegment_shapes _ _ _ hmem with ⟨i, hx⟩ | ⟨m, hx⟩
      · exact Or.inr (Or.inr (Or.inl ⟨i, hx⟩))
      · exact Or.inr (Or.inr (Or.inr (Or.inr ⟨_, hx⟩)))
  · simp only [List.mem_append, List.mem_cons] at hmem
    rcases hmem with ((hmem | hmem | hmem) | hmem | hmem | hmem) | hmem
    · rcases hookSegment_shapes _ _ _ hmem with ⟨i, hx⟩ | ⟨m, hx⟩
      · exact Or.inl ⟨i, hx⟩
      · exact Or.inr (Or.inr (Or.inr (Or.inr ⟨_, hx⟩)))
    · exact Or.inr (Or.inr (Or.inr (Or.inr ⟨_, hmem⟩)))
    · simp at hmem
    · exact Or.inr (Or.inr (Or.inr (Or.inr ⟨_, hmem⟩)))
    · rcases hookSegment_shapes _ _ _ hmem with ⟨i, hx⟩ | ⟨m, hx⟩
      · exact Or.inr (Or.inl ⟨i, hx⟩)
      · exact Or.inr (Or.inr (Or.inr (Or.inr ⟨_, hx⟩)))
    · by_cases hc : detailsOrMessage msg d = ""
      · simp [hc] at hmem
      · simp only [hc, if_false] at hmem
        simp at hmem
        exact Or.inr (Or.inr (Or.inr (Or.inr ⟨_, hmem⟩)))
    · rcases hookSegment_shapes _ _ _ hmem with ⟨i, hx⟩ | ⟨m, hx⟩
      · exact Or.inr (Or.inr (Or.inl ⟨i, hx⟩))
      · exact Or.inr (Or.inr (Or.inr (Or.inr ⟨_, hx⟩)))

/-- Unfolding of `processResponse` in terms of its named pieces. -/
theorem processResponse_eq (now : Nat) (s : ScState) :
    processResponse now s =
      ((markScenarioCompleted
          (runPhasesAux 0 (processEntry now s).nextCallbacks (processEntry now s)).2.2 none now
          (runPhasesAux 0 (processEntry now s).nextCallbacks (processEntry now s)).1).1,
       Event.logged (processLoadedItem { s with timeRequestLoaded := some now }) ::
         (runPhasesAux 0 (processEntry now s).nextCallbacks (processEntry now s)).2.1 ++
         (markScenarioCompleted
           (runPhasesAux 0 (processEntry now s).nextCallbacks (processEntry now s)).2.2 none now
           (runPhasesAux 0 (processEntry now s).nextCallbacks (processEntry now s)).1).2) := rfl

/-- Projections of the phase-loop entry state. -/
theorem processEntry_fields (now : Nat) (s : ScState) :
    (processEntry now s).nextCallbacks = s.nextCallbacks ∧
    (processEntry now s).timeScenarioFinished = s.timeScenarioFinished ∧
    (processEntry now s).timeScenarioExecuted = s.timeScenarioExecuted := by
  simp [processEntry, pushLog]

/-- The completion routine's trace never contains a phase start. -/
theorem markTrace_no_phaseStarted (e d : Option String) (now : Nat) (t : ScState)
    (h : hasFinished t = false) (j : Nat) :
    Event.phaseStarted j ∉ (markScenarioCompleted e d now t).2 := by
  intro hmem
  rcases markTrace_shapes e d now t h _ hmem with
    ⟨n, hx⟩ | ⟨n, hx⟩ | ⟨n, hx⟩ | ⟨⟨n, hx⟩, _⟩ | ⟨it, hx⟩ <;> exact Event.noConfusion hx

/-- The completion routine's trace never contains a fetch dispatch. -/
theorem markTrace_no_fetch (e d : Option String) (now : Nat) (t : ScState)
    (h : hasFinished t = false) :
    Event.fetchDispatched ∉ (markScenarioCompleted e d now t).2 := by
  intro hmem
  rcases markTrace_shapes e d now t h _ hmem with
    ⟨n, hx⟩ | ⟨n, hx⟩ | ⟨n, hx⟩ | ⟨⟨n, hx⟩, _⟩ | ⟨it, hx⟩ <;> exact Event.noConfusion hx

/-- Claim C1: for a scenario whose response is being processed, assertion
phases run strictly sequentially — a phase start appears in the trace only
when every earlier phase's callback return value, assertions and
sub-scenarios settled in time — each phase bounded by the single 30000 ms
timeout; and when the phase at index `i` throws or times out (all earlier
ones having settled), no later phase ever starts, the scenario transitions
to `Completed` (it is finished) with an execution-error classification (a
failing log entry is recorded) and no success hook fires. -/
theorem claim_c1 (s : ScState) (now : Nat) (i : Nat)
    (hi : i < s.nextCallbacks.length)
    (hexec : hasExecuted s = true) (hnofin : s.timeScenarioFinished = none)
    (hpre : (s.nextCallbacks.take i).all phaseSucceeds = true)
    (hfail : phaseThrowsOrTimesOut (s.nextCallbacks.get ⟨i, hi⟩) = true) :
    (∀ j, Event.phaseStarted j ∈ (processResponse now s).2 →
        (s.nextCallbacks.take j).all phaseSucceeds = true) ∧
    (∀ j, Event.phaseStarted j ∈ (processResponse now s).2 → j ≤ i) ∧
    hasFinished (processResponse now s).1 = true ∧
    scHasFailed (processResponse now s).1 = true ∧
    (∀ n, Event.hook HookKind.success n ∉ (processResponse now s).2) := by
  obtain ⟨hen, hef, hee⟩ := processEntry_fields now s
  rw [processResponse_eq, hen]
  obtain ⟨items, hitems⟩ := runPhasesAux_state 0 s.nextCallbacks (processEntry now s)
  have hRnotfin : hasFinished (runPhasesAux 0 s.nextCallbacks (processEntry now s)).1 = false := by
    rw [hitems]
    simp [hasFinished, hef, hnofin]
  obtain ⟨hA, msg, hmsg⟩ := runPhasesAux_stops 0 s.nextCallbacks (processEntry now s) i hi hpre hfail
  rw [hmsg]
  obtain ⟨hm1, hm2, hm3⟩ := markScenarioCompleted_state (some msg) none now _ hRnotfin
  refine ⟨?_, ?_, ?_, ?_, ?_⟩
  · intro j hj
    simp only [List.mem_cons, List.mem_append] at hj
    rcases hj with (hj | hj) | hj
    · exact Event.noConfusion hj
    · have hst := runPhasesAux_started 0 s.nextCallbacks (processEntry now s) j hj
      simpa using hst.2.2
    · exact absurd hj (markTrace_no_phaseStarted (some msg) none now _ hRnotfin j)
  · intro j hj
    simp only [List.mem_cons, List.mem_append] at hj
    rcases hj with (hj | hj) | hj
    · exact Event.noConfusion hj
    · simpa using hA j hj
    · exact absurd hj (markTrace_no_phaseStarted (some msg) none now _ hRnotfin j)
  · simp only [hasFinished, hasExecuted, hm1, hm2]
    rw [hitems]
    simp only [hef, hee]
    simp only [hasExecuted] at hexec
    simp [hexec]
  · have hfailmem := hm3 msg rfl
    simp only [scHasFailed, List.any_eq_true]
    exact ⟨LogItem.fail msg none, hfailmem, by simp [LogItem.isFail]⟩
  · intro n hmem
    simp only [List.mem_cons, List.mem_append] at hmem
    rcases hmem with (hmem | hmem) | hmem
    · exact Event.noConfusion hmem
    · rcases runPhasesAux_shapes 0 s.nextCallbacks (processEntry now s) _ hmem with ⟨j, hx⟩ | ⟨it, hx⟩ <;>
        exact Event.noConfusion hx
    · rcases markTrace_shapes (some msg) none now _ hRnotfin _ hmem with
        ⟨j, hx⟩ | ⟨j, hx⟩ | ⟨j, hx⟩ | ⟨⟨j, hx⟩, hnone⟩ | ⟨it, hx⟩
      · injection hx with hk _
        exact HookKind.noConfusion hk
      · injection hx with hk _
        exact HookKind.noConfusion hk
      · injection hx with hk _
        exact HookKind.noConfusion hk
      · exact Option.noConfusion hnone
      · exact Event.noConfusion hx

/-- Witness for claim C1 at a concrete scenario: with phase 1 throwing, the
run finishes with a failing classification. -/
theorem claim_c1_witness :
    hasFinished (processResponse 5 c1WitnessState).1 = true ∧
    scHasFailed (processResponse 5 c1WitnessState).1 = true := by
  refine ⟨(claim_c1 c1WitnessState 5 1 (by decide) (by decide) rfl (by decide) (by decide)).2.2.1,
    (claim_c1 c1WitnessState 5 1 (by decide) (by decide) rfl (by decide) (by decide)).2.2.2.1⟩

/-- Claim C2: calling `execute` on a scenario that has already started
executing throws a configuration error synchronously; no hook fires, no
phase runs, and the state is unchanged (the error is raised before any
mutation). -/
theorem claim_c2 (s : ScState) (p : Option (List (String × String))) (now : Nat)
    (h : hasExecuted s = true) :
    executeSc p now s =
      .error "Scenario has already started executing. Can not call execute again." := by
  unfold executeSc
  simp [h]

/-- Witness for claim C2 at a concrete executed scenario. -/
theorem claim_c2_witness :
    hasExecuted c2WitnessState = true ∧
    executeSc none 9 c2WitnessState =
      .error "Scenario has already started executing. Can not call execute again." :=
  ⟨by decide, claim_c2 c2WitnessState none 9 (by decide)⟩

/-- Once finished, the completion routine does nothing. -/
theorem markScenarioCompleted_noop (e d : Option String) (now : Nat) (t : ScState)
    (h : hasFinished t = true) : markScenarioCompleted e d now t = (t, []) := by
  unfold markScenarioCompleted
  simp [h]

/-- Claim C10: completion finalization runs at most once — on a finished
scenario the routine returns the state unchanged with an empty trace, and
for a scenario that has started executing, any second completion call after
a first one changes nothing and fires no hook. -/
theorem claim_c10 (s : ScState) (e d e2 d2 : Option String) (now now2 : Nat)
    (hexec : hasExecuted s = true) :
    (hasFinished s = true → markScenarioCompleted e d now s = (s, [])) ∧
    markScenarioCompleted e2 d2 now2 (markScenarioCompleted e d now s).1 =
      ((markScenarioCompleted e d now s).1, []) := by
  constructor
  · exact markScenarioCompleted_noop e d now s
  · by_cases hfin : hasFinished s = true
    · rw [markScenarioCompleted_noop e d now s hfin]
      exact markScenarioCompleted_noop e2 d2 now2 s hfin
    · have hfin0 : hasFinished s = false := by
        simpa using hfin
      obtain ⟨hm1, hm2, _⟩ := markScenarioCompleted_state e d now s hfin0
      have hfin2 : hasFinished (markScenarioCompleted e d now s).1 = true := by
        simp only [hasFinished, hasExecuted, hm1, hm2]
        simp only [hasExecuted] at hexec
        simp [hexec]
      exact markScenarioCompleted_noop e2 d2 now2 _ hfin2

/-- Witness for claim C10 at a concrete finished scenario. -/
theorem claim_c10_witness :
    hasExecuted finishedWitnessState = true ∧
    hasFinished finishedWitnessState = true ∧
    markScenarioCompleted none none 9 finishedWitnessState = (finishedWitnessState, []) :=
  ⟨by decide, by decide,
    (claim_c10 finishedWitnessState none none none none 9 9 (by decide)).1 (by decide)⟩

/-- A hook event inside a hook segment carries that segment's kind. -/
theorem hookSegment_kind (k k2 : HookKind) (hooks : List HookSpec) (n : Nat)
    (hmem : Event.hook k2 n ∈ hookSegment k hooks) : k2 = k := by
  rcases hookSegment_shapes k hooks _ hmem with ⟨i, hx⟩ | ⟨m, hx⟩
  · injection hx with h1 h2
    try exact h1
  · exact Event.noConfusion hx

/-- Claim C3: the finishing sequence is — after hooks in order, then the
duration comment, then exactly one of the success or failure hook lists
(success exactly when no execution error occurred and the log-derived
classification is passed, failure otherwise), and the finally hooks always
last; moreover a success hook can fire only without an execution error and
with a passing classification, and in that situation no failure hook
fires. -/
theorem claim_c3 (e d : Option String) (now : Nat) (s : ScState)
    (h : hasFinished s = false) :
    ((markScenarioCompleted e d now s).2 =
      hookSegment .after s.afterCallbacks
      ++ [Event.logged (.comment (durationCommentText now s))]
      ++ (match e with
          | none =>
            if hasExecuted s && !scHasFailed s then hookSegment .success s.successCallbacks
            else hookSegment .failure s.failureCallbacks
          | some msg =>
            Event.logged (.fail msg d) ::
              (hookSegment .failure s.failureCallbacks ++
               (if detailsOrMessage msg d = "" then []
                else [Event.logged (.comment (detailsOrMessage msg d))])))
      ++ hookSegment .finalH s.finallyCallbacks) ∧
    (∀ n, Event.hook HookKind.success n ∈ (markScenarioCompleted e d now s).2 →
      e = none ∧ (hasExecuted s && !scHasFailed s) = true) ∧
    (e = none → (hasExecuted s && !scHasFailed s) = true →
      ∀ n, Event.hook HookKind.failure n ∉ (markScenarioCompleted e d now s).2) := by
  refine ⟨markScenarioCompleted_trace e d now s h, ?_, ?_⟩
  · intro n hmem
    rw [markScenarioCompleted_trace e d now s h] at hmem
    rcases e with _ | msg
    · refine ⟨rfl, ?_⟩
      simp only [List.mem_append] at hmem
      rcases hmem with ((hmem | hmem) | hmem) | hmem
      · exact absurd (hookSegment_kind _ _ _ _ hmem) (by intro hx; exact HookKind.noConfusion hx)
      · simp at hmem
      · by_cases hc : (hasExecuted s && !scHasFailed s) = true
        · exact hc
        · rw [if_neg hc] at hmem
          exact absurd (hookSegment_kind _ _ _ _ hmem) (by intro hx; exact HookKind.noConfusion hx)
      · exact absurd (hookSegment_kind _ _ _ _ hmem) (by intro hx; exact HookKind.noConfusion hx)
    · exfalso
      simp only [List.mem_append, List.mem_cons] at hmem
      rcases hmem with ((hmem | hmem | hmem) | hmem | hmem | hmem) | hmem
      · exact absurd (hookSegment_kind _ _ _ _ hmem) (by intro hx; exact HookKind.noConfusion hx)
      · exact Event.noConfusion hmem
      · simp at hmem
      · exact Event.noConfusion hmem
      · exact absurd (hookSegment_kind _ _ _ _ hmem) (by intro hx; exact HookKind.noConfusion hx)
      · split at hmem
        · simp at hmem
        · simp at hmem
      · exact absurd (hookSegment_kind _ _ _ _ hmem) (by intro hx; exact HookKind.noConfusion hx)
  · intro he hc n hmem
    subst he
    rw [markScenarioCompleted_trace none d now s h] at hmem
    simp only [List.mem_append] at hmem
    rcases hmem with ((hmem | hmem) | hmem) | hmem
    · exact absurd (hookSegment_kind _ _ _ _ hmem) (by intro hx; exact HookKind.noConfusion hx)
    · simp at hmem
    · rw [if_pos hc] at hmem
      exact absurd (hookSegment_kind _ _ _ _ hmem) (by intro hx; exact HookKind.noConfusion hx)
    · exact absurd (hookSegment_kind _ _ _ _ hmem) (by intro hx; exact HookKind.noConfusion hx)

/-- Witness for claim C3 at a concrete passing scenario: the trace is the
after-duration-success-finally sequence and no failure hook fires. -/
theorem claim_c3_witness :
    hasFinished c3WitnessState = false ∧
    Event.hook HookKind.failure 0 ∉ (markScenarioCompleted none none 9 c3WitnessState).2 :=
  ⟨by decide, (claim_c3 none none 9 c3WitnessState (by decide)).2.2 rfl (by decide) 0⟩

/-- The trace of the skip body: before hooks, one skip comment, after
hooks, finally hooks. -/
theorem skipRun_snd (msg : Option String) (now : Nat) (s : ScState) :
    (skipRun msg now s).2 =
      hookSegment .before s.beforeCallbacks
      ++ [Event.logged (.comment (skipCommentText msg))]
      ++ hookSegment .after s.afterCallbacks
      ++ hookSegment .finalH s.finallyCallbacks := by
  simp only [skipRun, fireBefore, fireAfter, fireFinally, fireCallbacks_snd,
    fireCallbacks_fst, pushLog]

/-- Every event in a before/comment/after/finally sequence is a hook firing
or a log write. -/
theorem skipTrace_shapes (s : ScState) (msg : Option String) (ev : Event)
    (hmem : ev ∈ hookSegment .before s.beforeCallbacks
      ++ [Event.logged (.comment (skipCommentText msg))]
      ++ hookSegment .after s.afterCallbacks
      ++ hookSegment .finalH s.finallyCallbacks) :
    (∃ k i, ev = Event.hook k i) ∨ (∃ it, ev = Event.logged it) := by
  simp only [List.mem_append] at hmem
  rcases hmem with ((hmem | hmem) | hmem) | hmem
  · rcases hookSegment_shapes _ _ _ hmem with ⟨i, hx⟩ | ⟨m, hx⟩
    · exact Or.inl ⟨_, i, hx⟩
    · exact Or.inr ⟨_, hx⟩
  · simp at hmem
    exact Or.inr ⟨_, hmem⟩
  · rcases hookSegment_shapes _ _ _ hmem with ⟨i, hx⟩ | ⟨m, hx⟩
    · exact Or.inl ⟨_, i, hx⟩
    · exact Or.inr ⟨_, hx⟩
  · rcases hookSegment_shapes _ _ _ hmem with ⟨i, hx⟩ | ⟨m, hx⟩
    · exact Or.inl ⟨_, i, hx⟩
    · exact Or.inr ⟨_, hx⟩

/-- Claim C9: skipping a not-yet-executed scenario succeeds; its trace is
exactly the before hooks in order, one skip comment, the after hooks, then
the finally hooks; no fetch is dispatched and no assertion phase runs. -/
theorem claim_c9 (s : ScState) (msg : Option String) (now : Nat)
    (h : hasExecuted s = false) :
    ∃ t ev, skipSc msg now s = .ok (t, ev) ∧
      ev = hookSegment .before s.beforeCallbacks
        ++ [Event.logged (.comment (skipCommentText msg))]
        ++ hookSegment .after s.afterCallbacks
        ++ hookSegment .finalH s.finallyCallbacks ∧
      Event.fetchDispatched ∉ ev ∧
      (∀ j, Event.phaseStarted j ∉ ev) := by
  refine ⟨(skipRun msg now s).1, _, ?_, rfl, ?_, ?_⟩
  · unfold skipSc
    rw [if_neg (by simp [h])]
    conv_rhs => rw [← skipRun_snd msg now s]
  · intro hmem
    rcases skipTrace_shapes s msg _ hmem with ⟨k, i, hx⟩ | ⟨it, hx⟩ <;> exact Event.noConfusion hx
  · intro j hmem
    rcases skipTrace_shapes s msg _ hmem with ⟨k, i, hx⟩ | ⟨it, hx⟩ <;> exact Event.noConfusion hx

/-- Witness for claim C9 at a concrete scenario with hooks. -/
theorem claim_c9_witness :
    hasExecuted c9WitnessState = false ∧
    exceptOk (skipSc (some "why") 4 c9WitnessState) = true := by
  refine ⟨by decide, ?_⟩
  obtain ⟨t, ev, h1, h2, h3, h4⟩ := claim_c9 c9WitnessState (some "why") 4 (by decide)
  rw [h1]
  rfl

/-- Counterexample to claim C4 as stated: with execution begun (the
execution timestamp set) but the request not yet started — the state during
a `before` hook, and the state in which `_executeRequest` itself rewrites
the URL — assigning a new target URL succeeds instead of throwing; the URL
setter only guards on the request having started. -/
theorem claim_c4_counterexample :
    hasExecuted c4CounterState = true ∧
    hasRequestStarted c4CounterState = false ∧
    exceptOk (setUrl (some "https://a.com/y") c4CounterState) = true ∧
    (match setUrl (some "https://a.com/y") c4CounterState with
     | .ok t => t.url
     | .error _ => none) = some "https://a.com/y" := by
  refine ⟨by decide, by decide, by decide, by decide⟩

/-- Claim C4 as amended: appending assertion phases, lifecycle hooks or
pipe hooks after the scenario has finished fails with a state error, and
the thrown error leaves the scenario unchanged; changing the title after
execution has begun fails likewise; but the target URL is only guarded
against change once the *request* has started — not from the beginning of
execution. -/
theorem claim_c4 (s : ScState) :
    (∀ which h2, hasFinished s = true →
      pushCallbacksSc which h2 s =
        .error ("Can not add " ++ which.displayName ++ " callbacks after execution has finished.")) ∧
    (∀ p ap, hasFinished s = true → nextSc p ap s = .error "Scenario already finished.") ∧
    (∀ t2, hasExecuted s = true →
      setTitle t2 s = .error "Can not change the scenario's title after execution has started.") ∧
    (∀ v, hasRequestStarted s = true →
      setUrl v s = .error "Can not change the URL after the request has already started.") := by
  refine ⟨?_, ?_, ?_, ?_⟩
  · intro which h2 hfin
    unfold pushCallbacksSc
    simp [hfin]
  · intro p ap hfin
    unfold nextSc
    simp [hfin]
  · intro t2 hex
    unfold setTitle
    simp [hex]
  · intro v hreq
    unfold setUrl
    simp [hreq]

/-- Witness for the amended claim C4 at a concrete finished scenario. -/
theorem claim_c4_witness :
    hasFinished finishedWitnessState = true ∧
    pushCallbacksSc CallbackList.pipe { message := none } finishedWitnessState =
      .error "Can not add pipe callbacks after execution has finished." ∧
    nextSc { message := none, behavior := .returns 0 none, incompleteAssertions := [] }
        true finishedWitnessState = .error "Scenario already finished." ∧
    setTitle "other" finishedWitnessState =
      .error "Can not change the scenario's title after execution has started." :=
  ⟨by decide,
   (claim_c4 finishedWitnessState).1 CallbackList.pipe { message := none } (by decide),
   (claim_c4 finishedWitnessState).2.1 _ true (by decide),
   (claim_c4 finishedWitnessState).2.2.1 "other" (by decide)⟩

/-- Claim C5: a scenario with a defined (or any) target and zero assertion
phases is never ready to execute; calling `execute` dispatches no fetch and
leaves it unexecuted (still waiting), and it stays unready until a phase is
registered. -/
theorem claim_c5 (s : ScState) (p : Option (List (String × String))) (now : Nat)
    (hempty : s.nextCallbacks = [])
    (hexec : hasExecuted s = false)
    (hreq : s.timeRequestStarted = none) :
    isReadyToExecute s = false ∧
    ∃ t, executeSc p now s = .ok (t, []) ∧
      hasExecuted t = false ∧ t.nextCallbacks = [] ∧ isReadyToExecute t = false := by
  have hready : isReadyToExecute s = false := by
    simp [isReadyToExecute, hasNextCallbacks, hempty]
  refine ⟨hready, ?_⟩
  rcases p with _ | ps
  · have hready2 : isReadyToExecute (scWait false now s) = false := by
      simp [isReadyToExecute, hasNextCallbacks, scWait_nextCallbacks, hempty]
    refine ⟨scWait false now s, ?_, ?_, ?_, ?_⟩
    · unfold executeSc executeCore
      rw [if_neg (by simp [hexec])]
      simp [hready2]
    · rw [hasExecuted, scWait_timeScenarioExecuted]
      simpa [hasExecuted] using hexec
    · rw [scWait_nextCallbacks]
      exact hempty
    · exact hready2
  · obtain ⟨s1, hs1⟩ := applyPathParams_ok_of_not_started ps s hreq
    obtain ⟨a1, a2, _, _, _, _, _⟩ := applyPathParams_ok_spec ps s s1 hs1
    have hnext1 : s1.nextCallbacks = [] := a1.trans hempty
    have hready2 : isReadyToExecute (scWait false now s1) = false := by
      simp [isReadyToExecute, hasNextCallbacks, scWait_nextCallbacks, hnext1]
    refine ⟨scWait false now s1, ?_, ?_, ?_, ?_⟩
    · unfold executeSc executeCore
      rw [if_neg (by simp [hexec])]
      dsimp only
      rw [hs1]
      simp [hready2]
    · rw [hasExecuted, scWait_timeScenarioExecuted, a2]
      simpa [hasExecuted] using hexec
    · rw [scWait_nextCallbacks]
      exact hnext1
    · exact hready2

/-- Witness for claim C5 at a concrete scenario with a target and no
phases: it is not ready, and `execute` succeeds without dispatching
anything (empty trace) and without marking it executed. -/
theorem claim_c5_witness :
    isReadyToExecute c5WitnessState = false ∧
    exceptOk (executeSc none 7 c5WitnessState) = true := by
  obtain ⟨h1, t, h2, h3, _, _⟩ := claim_c5 c5WitnessState none 7 rfl (by decide) rfl
  exact ⟨h1, by rw [h2]; rfl⟩

/-- Fields of the execute entry state: the execution time is stamped, the
rest is untouched apart from the log. -/
theorem executeEntry_fields (now : Nat) (s2 : ScState) :
    (executeEntry now s2).1.url = s2.url ∧
    (executeEntry now s2).1.timeScenarioExecuted = some now ∧
    (executeEntry now s2).1.timeRequestStarted = s2.timeRequestStarted ∧
    (executeEntry now s2).1.suiteBaseUrl = s2.suiteBaseUrl ∧
    (executeEntry now s2).1.isMock = s2.isMock := by
  unfold executeEntry
  simp only [fireBefore, fireCallbacks_fst, pushLog]
  split <;> simp

/-- `_executeMock` succeeds and dispatches the fetch once the URL is set
and no request is in flight. -/
theorem executeMock_ok (now : Nat) (t : ScState) (hurl : t.url ≠ none)
    (hreq : hasRequestStarted t = false) :
    executeMock now t = .ok ({ t with timeRequestStarted := some now }, [Event.fetchDispatched]) := by
  unfold executeMock
  rw [if_neg hurl, if_neg (by simp [hreq])]

/-- `_executeRequest` succeeds and dispatches the fetch once the URL is
set, no request is in flight and the URL builds against the base. -/
theorem executeRequest_ok (now : Nat) (t : ScState) (hurl : t.url ≠ none)
    (hreq : hasRequestStarted t = false)
    (hbuild : buildUrl t.suiteBaseUrl t.url ≠ none) :
    ∃ t1, executeRequest now t = .ok (t1, [Event.fetchDispatched]) ∧
      t1.timeScenarioExecuted = t.timeScenarioExecuted := by
  unfold executeRequest
  rw [if_neg hurl, if_neg (by simp [hreq])]
  match hb : buildUrl t.suiteBaseUrl t.url with
  | none => exact absurd hb hbuild
  | some u =>
    obtain ⟨t2, ht2⟩ := setUrl_ok_of_not_started (some u.href) t hreq
    have hspec := setUrl_ok_spec (some u.href) t t2 ht2
    dsimp only
    rw [ht2]
    refine ⟨_, rfl, ?_⟩
    simpa using hspec.2.1

/-- When the scenario is ready, `executeCore` stamps the execution time and
dispatches exactly one fetch. -/
theorem executeCore_ready (now : Nat) (s2 : ScState)
    (hready : isReadyToExecute s2 = true)
    (hreq : s2.timeRequestStarted = none)
    (hurl : s2.url ≠ none)
    (hbuild : s2.isMock = false → buildUrl s2.suiteBaseUrl s2.url ≠ none) :
    ∃ t ev, executeCore now s2 = .ok (t, ev) ∧ hasExecuted t = true ∧
      Event.fetchDispatched ∈ ev := by
  obtain ⟨e1, e2, e3, e4, e5⟩ := executeEntry_fields now s2
  unfold executeCore
  rw [if_pos hready]
  dsimp only
  have hereq : hasRequestStarted (executeEntry now s2).1 = false := by
    simp [hasRequestStarted, e3, hreq]
  have heurl : (executeEntry now s2).1.url ≠ none := by
    rw [e1]; exact hurl
  by_cases hm : (executeEntry now s2).1.isMock = true
  · rw [if_pos hm, executeMock_ok now _ heurl hereq]
    refine ⟨_, _, rfl, ?_, by simp⟩
    simp [hasExecuted, e2]
  · rw [if_neg hm]
    have hmock : s2.isMock = false := by
      rw [← e5]; simpa using hm
    have hbuild2 : buildUrl (executeEntry now s2).1.suiteBaseUrl (executeEntry now s2).1.url ≠ none := by
      rw [e4, e1]; exact hbuild hmock
    obtain ⟨t1, ht1, hexec1⟩ := executeRequest_ok now _ heurl hereq hbuild2
    rw [ht1]
    refine ⟨_, _, rfl, ?_, by simp⟩
    simp [hasExecuted, hexec1, e2]

/-- Claim C6: a scenario whose target URL contains an unresolved `{name}`
path parameter is implicitly waiting — not ready, so a parameterless
`execute` does nothing and leaves it unexecuted; and once `execute` is
called with values resolving all the parameters (the URL after substitution
has no placeholder left), the explicit wait is cleared and the scenario
proceeds to executing automatically: it is marked executed and the fetch is
dispatched. -/
theorem claim_c6 (s : ScState) (ps : List (String × String)) (now : Nat) (u0 : String)
    (hurl : s.url = some u0) (hpar : hasPathParam u0 = true)
    (hexec : hasExecuted s = false) (hreq : s.timeRequestStarted = none)
    (hnext : s.nextCallbacks ≠ [])
    (s1 : ScState) (happ : applyPathParams ps s = .ok s1)
    (u1 : String) (hu1 : s1.url = some u1) (hnopar : hasPathParam u1 = false)
    (hbuild : s1.isMock = false → buildUrl s1.suiteBaseUrl (some u1) ≠ none) :
    isImplicitWait s = true ∧
    isReadyToExecute s = false ∧
    (∃ t, executeSc none now s = .ok (t, []) ∧ hasExecuted t = false) ∧
    (∃ t ev, executeSc (some ps) now s = .ok (t, ev) ∧ hasExecuted t = true ∧
      Event.fetchDispatched ∈ ev) := by
  have himp : isImplicitWait s = true := by
    rw [isImplicitWait, hurl]
    exact hpar
  have hready0 : isReadyToExecute s = false := by
    simp [isReadyToExecute, himp]
  refine ⟨himp, hready0, ?_, ?_⟩
  · have himp2 : isImplicitWait (scWait false now s) = true := by
      rw [isImplicitWait, scWait_url, hurl]
      exact hpar
    have hready2 : isReadyToExecute (scWait false now s) = false := by
      simp [isReadyToExecute, himp2]
    refine ⟨scWait false now s, ?_, ?_⟩
    · unfold executeSc executeCore
      rw [if_neg (by simp [hexec])]
      simp [hready2]
    · rw [hasExecuted, scWait_timeScenarioExecuted]
      simpa [hasExecuted] using hexec
  · obtain ⟨a1, a2, a3, a4, a5, _, _⟩ := applyPathParams_ok_spec ps s s1 happ
    have hready1 : isReadyToExecute (scWait false now s1) = true := by
      have h1 : hasExecuted (scWait false now s1) = false := by
        rw [hasExecuted, scWait_timeScenarioExecuted, a2]
        simpa [hasExecuted] using hexec
      have h2 : isImplicitWait (scWait false now s1) = false := by
        rw [isImplicitWait, scWait_url, hu1]
        exact hnopar
      have h3 : hasNextCallbacks (scWait false now s1) = true := by
        rw [hasNextCallbacks, scWait_nextCallbacks, a1]
        simpa using hnext
      simp [isReadyToExecute, h1, h2, h3, isExplicitWait, scWait_waitToExecute]
    obtain ⟨t, ev, hcore, htexec, htfetch⟩ :=
      executeCore_ready now (scWait false now s1) hready1
        (by rw [scWait_timeRequestStarted, a3]; exact hreq)
        (by rw [scWait_url, hu1]; simp)
        (by
          rw [scWait_isMock, scWait_suiteBaseUrl, scWait_url, hu1]
          exact hbuild)
    refine ⟨t, ev, ?_, htexec, htfetch⟩
    unfold executeSc
    rw [if_neg (by simp [hexec])]
    dsimp only
    rw [happ]
    exact hcore

/-- Witness for claim C6 at a concrete scenario with target
`https://example.com/items/{id}`: it waits implicitly, a parameterless
`execute` is a no-op, and `execute` with `id := 42` proceeds. -/
theorem claim_c6_witness :
    isImplicitWait c6WitnessState = true ∧
    exceptOk (executeSc none 7 c6WitnessState) = true ∧
    exceptOk (executeSc (some [("id", "42")]) 7 c6WitnessState) = true := by
  obtain ⟨h1, h2, ⟨t, h3, h4⟩, ⟨t2, ev2, h5, h6, h7⟩⟩ :=
    claim_c6 c6WitnessState [("id", "42")] 7 "https://example.com/items/\x7bid\x7d"
      rfl (by decide) (by decide) rfl (by decide)
      { c6WitnessState with url := some "https://example.com/items/42" } (by rfl)
      "https://example.com/items/42" rfl (by decide)
      (fun _ => by decide)
  exact ⟨h1, by rw [h3]; rfl, by rw [h5]; rfl⟩

/-- `strStartsWith` in terms of list prefixes. -/
theorem strStartsWith_iff (s pre : String) :
    strStartsWith s pre = true ↔ pre.toList <+: s.toList := by
  simp [strStartsWith, List.isPrefixOf_iff_prefix]

/-- A string starts with any of its literal prefixes. -/
theorem strStartsWith_append (pre r : String) : strStartsWith (pre ++ r) pre = true := by
  rw [strStartsWith_iff]
  simp only [String.toList, String.data_append]
  exact List.prefix_append _ _

/-- Dropping leading slashes stops at a non-slash head. -/
theorem dropLeadingSlashes_ne (c : Char) (l : List Char) (h : c ≠ '/') :
    dropLeadingSlashes (c :: l) = c :: l := by
  unfold dropLeadingSlashes
  split
  · rename_i rest heq
    injection heq with h1 h2
    exact absurd h1 h
  · rfl

/-- Splitting an authority at the first slash, when the host part has no
slash and the path part starts with one. -/
theorem splitHostPath_append (hl t : List Char) (hno : ∀ c ∈ hl, c ≠ '/') :
    splitHostPath (hl ++ '/' :: t) = (hl.asString, ('/' :: t).asString) := by
  unfold splitHostPath
  have h1 : (hl ++ '/' :: t).takeWhile (fun c => c ≠ '/') = hl := by
    induction hl with
    | nil => simp [List.takeWhile_cons]
    | cons c cs ih =>
      have hc : c ≠ '/' := hno c (List.mem_cons_self c cs)
      simp only [List.cons_append, List.takeWhile_cons]
      rw [if_pos (by simpa using hc)]
      rw [ih (fun x hx => hno x (List.mem_cons_of_mem c hx))]
  have h2 : (hl ++ '/' :: t).dropWhile (fun c => c ≠ '/') = '/' :: t := by
    clear h1
    induction hl with
    | nil => simp [List.dropWhile_cons]
    | cons c cs ih =>
      have hc : c ≠ '/' := hno c (List.mem_cons_self c cs)
      simp only [List.cons_append, List.dropWhile_cons]
      rw [if_pos (by simpa using hc)]
      exact ih (fun x hx => hno x (List.mem_cons_of_mem c hx))
  rw [h1, h2]
  simp

/-- One scheme attempt on a string that carries exactly that scheme. -/
theorem tryScheme_append (scheme : String) (tail : List Char) :
    tryScheme scheme ((scheme ++ ":").toList ++ tail) =
      (if (dropLeadingSlashes tail).isEmpty then none
       else if (splitHostPath (dropLeadingSlashes tail)).1 = "" then none
       else some ⟨scheme ++ ":", (splitHostPath (dropLeadingSlashes tail)).1,
         (splitHostPath (dropLeadingSlashes tail)).2⟩) := by
  unfold tryScheme
  rw [if_pos (by
    rw [List.isPrefixOf_iff_prefix]
    exact List.prefix_append _ _)]
  rw [List.drop_left]

/-- A scheme attempt fails outright when the scheme prefix is absent. -/
theorem tryScheme_none (scheme : String) (l : List Char)
    (h : ((scheme ++ ":").toList.isPrefixOf l) = false) : tryScheme scheme l = none := by
  unfold tryScheme
  dsimp only
  rw [h]
  rfl

/-- Leading slashes stop at a nonempty slash-free host. -/
theorem dropSlashes_to_host (hst : String) (r : List Char) (hh : hst ≠ "")
    (hhn : ∀ c ∈ hst.toList, c ≠ '/') :
    dropLeadingSlashes (hst.toList ++ r) = hst.toList ++ r := by
  cases hl : hst.toList with
  | nil => exact absurd (String.toList_inj.mp (hl.trans String.toList_empty.symm)) hh
  | cons c cs =>
    rw [hl] at hhn
    rw [List.cons_append]
    exact dropLeadingSlashes_ne c _ (hhn c (List.mem_cons_self c cs))

/-- A scheme attempt on scheme ++ authority ++ slash-headed path parses into
its components. -/
theorem tryScheme_host (scheme hst p : String) (tail : List Char)
    (hdrop : dropLeadingSlashes tail = hst.toList ++ p.toList)
    (hh : hst ≠ "") (hhn : ∀ c ∈ hst.toList, c ≠ '/')
    (t : List Char) (ht : p.toList = '/' :: t) :
    tryScheme scheme ((scheme ++ ":").toList ++ tail) = some ⟨scheme ++ ":", hst, p⟩ := by
  rw [tryScheme_append, hdrop, ht]
  have hem : (hst.toList ++ '/' :: t).isEmpty = false := by
    cases hst.toList with
    | nil => rfl
    | cons c cs => rfl
  rw [if_neg (by simp [hem])]
  rw [splitHostPath_append hst.toList t hhn]
  rw [if_neg (by rw [String.asString_toList]; exact hh)]
  rw [String.asString_toList, ← ht, String.asString_toList]

/-- The URL parser on an https URL with slash-free host and slash-headed path. -/
theorem parseUrl_https_case (s hst p : String) (tail : List Char)
    (hl : s.toList = ("https" ++ ":").toList ++ tail)
    (hdrop : dropLeadingSlashes tail = hst.toList ++ p.toList)
    (hh : hst ≠ "") (hhn : ∀ c ∈ hst.toList, c ≠ '/')
    (t : List Char) (ht : p.toList = '/' :: t) :
    parseUrlString s = some ⟨"https:", hst, p⟩ := by
  unfold parseUrlString parseUrlChars
  rw [hl, tryScheme_host "https" hst p tail hdrop hh hhn t ht]
  rfl

/-- The URL parser on an http URL with slash-free host and slash-headed path. -/
theorem parseUrl_http_case (s hst p : String) (tail : List Char)
    (hl : s.toList = ("http" ++ ":").toList ++ tail)
    (hfail : (("https" ++ ":").toList.isPrefixOf s.toList) = false)
    (hdrop : dropLeadingSlashes tail = hst.toList ++ p.toList)
    (hh : hst ≠ "") (hhn : ∀ c ∈ hst.toList, c ≠ '/')
    (t : List Char) (ht : p.toList = '/' :: t) :
    parseUrlString s = some ⟨"http:", hst, p⟩ := by
  unfold parseUrlString parseUrlChars
  rw [tryScheme_none "https" s.toList hfail]
  show tryScheme "http" s.toList = _
  rw [hl, tryScheme_host "http" hst p tail hdrop hh hhn t ht]
  rfl

/-- Not starting with a slash implies not starting with two. -/
theorem startsWith_two_of_one (p : String) (h : strStartsWith p "/" = false) :
    strStartsWith p "//" = false := by
  unfold strStartsWith at h ⊢
  cases hl : p.toList with
  | nil => rfl
  | cons c cs =>
    rw [hl] at h
    cases hbc : ('/' == c) with
    | false => simp [List.isPrefixOf, hbc]
    | true => simp [List.isPrefixOf, hbc] at h

/-- Claim C7: with a suite base URL set (http or https, nonempty slash-free
host), URL resolution follows the four rules: an absolute URL is parsed
as-is, bypassing the base entirely; a protocol-relative URL (starting with
//) keeps its own host and takes only the protocol from the base; a
path-absolute URL (starting with / but not //) is joined to the base's
origin, keeping the base's protocol and host; and any other relative path is
joined to the full base URL by merging against the base's path. -/
theorem claim_c7 (base : Url)
    (hproto : base.protocol = "http:" ∨ base.protocol = "https:")
    (hhost : base.host ≠ "")
    (hns : ∀ c ∈ base.host.toList, c ≠ '/') :
    (∀ p : String, (strStartsWith p "http://" = true ∨ strStartsWith p "https://" = true) →
        buildUrl (some base) (some p) = parseUrlString p ∧
        buildUrl (some base) (some p) = buildUrl none (some p)) ∧
    (∀ hst rest : String, hst ≠ "" → (∀ c ∈ hst.toList, c ≠ '/') →
        (∃ t, rest.toList = '/' :: t) →
        buildUrl (some base) (some ("//" ++ hst ++ rest)) =
          some ⟨base.protocol, hst, rest⟩) ∧
    (∀ p : String, strStartsWith p "/" = true → strStartsWith p "//" = false →
        buildUrl (some base) (some p) = some ⟨base.protocol, base.host, p⟩) ∧
    (∀ p : String, p ≠ "" →
        strStartsWith p "http://" = false → strStartsWith p "https://" = false →
        strStartsWith p "data:" = false → strStartsWith p "/" = false →
        parseUrlString p = none →
        buildUrl (some base) (some p) =
          some { base with pathname := mergePaths base.pathname p }) := by
  refine ⟨?_, ?_, ?_, ?_⟩
  · intro p hp
    have hne : p ≠ "" := by
      rcases hp with h | h <;> (intro h0; rw [h0] at h; exact absurd h (by decide))
    constructor
    · rcases hp with h | h <;> simp [buildUrl, hne, h]
    · rcases hp with h | h <;> simp [buildUrl, hne, h]
  · intro hst rest hh hhn hex
    obtain ⟨t, ht⟩ := hex
    have hdrop : dropLeadingSlashes ('/' :: '/' :: '/' :: '/' :: (hst.toList ++ rest.toList))
        = hst.toList ++ rest.toList := by
      show dropLeadingSlashes (hst.toList ++ rest.toList) = _
      exact dropSlashes_to_host hst rest.toList hh hhn
    have hne : ("//" ++ hst ++ rest) ≠ "" := by
      intro h0
      have h1 := congrArg String.toList h0
      rw [String.toList_empty] at h1
      exact List.noConfusion h1
    have hb1 : strStartsWith ("//" ++ hst ++ rest) "http://" = false := rfl
    have hb2 : strStartsWith ("//" ++ hst ++ rest) "https://" = false := rfl
    have hb3 : strStartsWith ("//" ++ hst ++ rest) "data:" = false := rfl
    have hb4 : strStartsWith ("//" ++ hst ++ rest) "//" = true := by
      rw [strStartsWith_iff]
      show "//".toList <+: _
      simp only [String.toList, String.data_append, List.append_assoc]
      exact List.prefix_append _ _
    have hmain : buildUrl (some base) (some ("//" ++ hst ++ rest))
        = parseUrlString (base.protocol ++ "//" ++ ("//" ++ hst ++ rest)) := by
      simp [buildUrl, hne, hb1, hb2, hb3, hb4]
    rw [hmain]
    rcases hproto with hp | hp <;> rw [hp]
    · exact parseUrl_http_case _ hst rest
        ('/' :: '/' :: '/' :: '/' :: (hst.toList ++ rest.toList)) rfl rfl hdrop hh hhn t ht
    · exact parseUrl_https_case _ hst rest
        ('/' :: '/' :: '/' :: '/' :: (hst.toList ++ rest.toList)) rfl hdrop hh hhn t ht
  · intro p hp1 hp2
    obtain ⟨t, ht⟩ : ∃ t, p.toList = '/' :: t := by
      obtain ⟨t, ht⟩ := (strStartsWith_iff p "/").mp hp1
      exact ⟨t, ht.symm⟩
    have hne : p ≠ "" := by
      intro h0
      rw [h0, String.toList_empty] at ht
      exact List.noConfusion ht
    have hb1 : strStartsWith p "http://" = false := by
      unfold strStartsWith
      rw [ht]
      rfl
    have hb2 : strStartsWith p "https://" = false := by
      unfold strStartsWith
      rw [ht]
      rfl
    have hb3 : strStartsWith p "data:" = false := by
      unfold strStartsWith
      rw [ht]
      rfl
    have hdrop : dropLeadingSlashes ('/' :: '/' :: (base.host.toList ++ p.toList))
        = base.host.toList ++ p.toList := by
      show dropLeadingSlashes (base.host.toList ++ p.toList) = _
      exact dropSlashes_to_host base.host p.toList hhost hns
    have hmain : buildUrl (some base) (some p)
        = parseUrlString (base.protocol ++ "//" ++ base.host ++ p) := by
      simp [buildUrl, hne, hb1, hb2, hb3, hp2, hp1]
    rw [hmain]
    rcases hproto with hp | hp <;> rw [hp]
    · exact parseUrl_http_case _ base.host p
        ('/' :: '/' :: (base.host.toList ++ p.toList)) rfl rfl hdrop hhost hns t ht
    · exact parseUrl_https_case _ base.host p
        ('/' :: '/' :: (base.host.toList ++ p.toList)) rfl hdrop hhost hns t ht
  · intro p hne hb1 hb2 hb3 hb5 hparse
    have hb4 : strStartsWith p "//" = false := startsWith_two_of_one p hb5
    simp [buildUrl, resolveAgainst, hne, hb1, hb2, hb3, hb4, hb5, hparse]

/-- Witness for claim C7 at a concrete base URL and four concrete paths. -/
theorem claim_c7_witness :
    buildUrl (some ⟨"https:", "www.example.com", "/dir/page.html"⟩)
        (some "http://other.com/x") = parseUrlString "http://other.com/x" ∧
    buildUrl (some ⟨"https:", "www.example.com", "/dir/page.html"⟩)
        (some "//cdn.com/lib.js") = some ⟨"https:", "cdn.com", "/lib.js"⟩ ∧
    buildUrl (some ⟨"https:", "www.example.com", "/dir/page.html"⟩)
        (some "/rooted?q=1") = some ⟨"https:", "www.example.com", "/rooted?q=1"⟩ ∧
    buildUrl (some ⟨"https:", "www.example.com", "/dir/page.html"⟩)
        (some "relative/p") = some ⟨"https:", "www.example.com", "/dir/relative/p"⟩ := by
  have h := claim_c7 ⟨"https:", "www.example.com", "/dir/page.html"⟩
    (Or.inr rfl) (by decide) (by decide)
  refine ⟨(h.1 "http://other.com/x" (Or.inl (by decide))).1, ?_, ?_, ?_⟩
  · have h2 := h.2.1 "cdn.com" "/lib.js" (by decide) (by decide) ⟨"lib.js".toList, rfl⟩
    have harg : ("//" ++ "cdn.com" ++ "/lib.js" : String) = "//cdn.com/lib.js" := by decide
    rw [harg] at h2
    exact h2
  · exact h.2.2.1 "/rooted?q=1" (by decide) (by decide)
  · have h4 := h.2.2.2 "relative/p" (by decide) (by decide) (by decide) (by decide)
      (by decide) (by decide)
    rw [h4]
    decide

/-- Membership in the Set-spread deduplication: an element survives exactly
when it occurs in the input and was not already seen. -/
theorem jsSetDedupAux_mem (a : JsPrim) (xs : List JsPrim) :
    ∀ seen, a ∈ jsSetDedupAux xs seen ↔ (a ∈ xs ∧ a ∉ seen) := by
  induction xs with
  | nil =>
    intro seen
    simp [jsSetDedupAux]
  | cons x xs ih =>
    intro seen
    by_cases hx : x ∈ seen
    · rw [jsSetDedupAux, if_pos hx, ih seen]
      constructor
      · rintro ⟨h1, h2⟩
        exact ⟨List.mem_cons_of_mem x h1, h2⟩
      · rintro ⟨h1, h2⟩
        rcases List.mem_cons.mp h1 with h | h
        · subst h
          exact absurd hx h2
        · exact ⟨h, h2⟩
    · rw [jsSetDedupAux, if_neg hx]
      simp only [List.mem_cons, ih (x :: seen)]
      constructor
      · rintro (h | ⟨h1, h2⟩)
        · subst h
          exact ⟨Or.inl rfl, hx⟩
        · exact ⟨Or.inr h1, fun hs => h2 (Or.inr hs)⟩
      · rintro ⟨h | h1, h2⟩
        · exact Or.inl h
        · by_cases hax : a = x
          · exact Or.inl hax
          · refine Or.inr ⟨h1, fun hs => ?_⟩
            rcases hs with h' | h'
            · exact hax h'
            · exact h2 h'

/-- The Set-spread deduplication never repeats an element. -/
theorem jsSetDedupAux_nodup (xs : List JsPrim) :
    ∀ seen, (jsSetDedupAux xs seen).Nodup := by
  induction xs with
  | nil =>
    intro seen
    simp [jsSetDedupAux]
  | cons x xs ih =>
    intro seen
    by_cases hx : x ∈ seen
    · rw [jsSetDedupAux, if_pos hx]
      exact ih seen
    · rw [jsSetDedupAux, if_neg hx]
      refine List.nodup_cons.mpr ⟨fun hmem => ?_, ih (x :: seen)⟩
      exact ((jsSetDedupAux_mem x xs (x :: seen)).mp hmem).2 (List.mem_cons_self x seen)

/-- `[...new Set(arr)]` keeps exactly the elements of `arr`. -/
theorem jsSetDedup_mem (a : JsPrim) (xs : List JsPrim) :
    a ∈ jsSetDedup xs ↔ a ∈ xs := by
  rw [jsSetDedup, jsSetDedupAux_mem]
  simp

/-- `[...new Set(arr)]` has no duplicates. -/
theorem jsSetDedup_nodup (xs : List JsPrim) : (jsSetDedup xs).Nodup :=
  jsSetDedupAux_nodup xs []

/-- Stable insertion only reorders: the result is a permutation of the
element consed on. -/
theorem stableInsert_perm (cmp : α → α → Ordering) (x : α) (l : List α) :
    (stableInsert cmp x l).Perm (x :: l) := by
  induction l with
  | nil => simp [stableInsert]
  | cons y ys ih =>
    rw [stableInsert]
    by_cases h : cmp x y = Ordering.lt
    · rw [if_pos h]
    · rw [if_neg h]
      exact (List.Perm.cons y ih).trans (List.Perm.swap x y ys)

/-- The insertion-sort fold permutes its accumulator and input. -/
theorem foldl_stableInsert_perm (cmp : α → α → Ordering) (l : List α) :
    ∀ acc, (List.foldl (fun a x => stableInsert cmp x a) acc l).Perm (acc ++ l) := by
  induction l with
  | nil =>
    intro acc
    simp
  | cons x xs ih =>
    intro acc
    rw [List.foldl_cons]
    have h3 : ((x :: acc) ++ xs).Perm (acc ++ x :: xs) := by
      rw [List.cons_append]
      exact List.perm_middle.symm
    exact (ih (stableInsert cmp x acc)).trans
      (((stableInsert_perm cmp x acc).append_right xs).trans h3)

/-- `Array.prototype.sort` rearranges without adding or dropping elements. -/
theorem jsSort_perm (cmp : α → α → Ordering) (l : List α) :
    (jsSort cmp l).Perm l := by
  have h := foldl_stableInsert_perm cmp l []
  rw [List.nil_append] at h
  exact h

/-- Counterexample to claim C8 as stated: `asc` (and `desc`) do mutate the
source.  `toArray()` hands back the underlying array itself and
`Array.prototype.sort` works in place, so after `asc` the source `Value`'s
underlying data is the sorted array, not the original.  Also, `split`,
`join`, `unique`, `asc` and `desc` pass `this.name` through unchanged
rather than deriving a new name. -/
theorem claim_c8_counterexample :
    (Value.ascP ⟨.arr [.pStr "b", .pStr "a"], some "letters"⟩).sourceInput
        ≠ (⟨.arr [.pStr "b", .pStr "a"], some "letters"⟩ : Value).input ∧
    (Value.ascP ⟨.arr [.pStr "b", .pStr "a"], some "letters"⟩).sourceInput
        = .arr [.pStr "a", .pStr "b"] ∧
    (Value.descP ⟨.arr [.pStr "a", .pStr "b"], some "letters"⟩).sourceInput
        ≠ (⟨.arr [.pStr "a", .pStr "b"], some "letters"⟩ : Value).input ∧
    (Value.splitP "," ⟨.prim (.pStr "a,b"), some "csv"⟩).result.name = some "csv" ∧
    (Value.uniqueP ⟨.arr [.pStr "a", .pStr "a"], some "letters"⟩).result.name
        = some "letters" := by
  refine ⟨by decide, by decide, by decide, by decide, by decide⟩

/-- Claim C8, amended: every projection builds a fresh result `Value` whose
data is the expected transform of the source data — trim, uppercase and
lowercase act on string inputs; first, last and nth pick elements; split,
join, unique, asc and desc act on the array view, with unique yielding a
duplicate-free list of exactly the source's elements and asc/desc yielding
permutations.  The names are derived for trim/uppercase/lowercase/first/
last/nth but passed through unchanged (`this.name`) for
split/join/unique/asc/desc.  No projection mutates the source except asc
and desc, which sort an array input in place, leaving the source's data the
sorted array; on non-array inputs even asc and desc leave the source
untouched. -/
theorem claim_c8 (v : Value) (sep : String) (i : Nat) :
    ((v.trimP).result.name = some ("Trim of " ++ v.rawNameStr) ∧
     (v.uppercaseP).result.name = some ("Uppercase of " ++ v.rawNameStr) ∧
     (v.lowercaseP).result.name = some ("Lowercase of " ++ v.rawNameStr) ∧
     (v.firstP).result.name = some ("First in " ++ v.rawNameStr) ∧
     (v.lastP).result.name = some ("Last in " ++ v.rawNameStr) ∧
     (Value.nthP i v).result.name = some (toOrdinal (i + 1) ++ " value in " ++ v.nameStr)) ∧
    ((Value.splitP sep v).result.name = some v.nameStr ∧
     (Value.joinP sep v).result.name = some v.nameStr ∧
     (v.uniqueP).result.name = some v.nameStr ∧
     (v.ascP).result.name = some v.nameStr ∧
     (v.descP).result.name = some v.nameStr) ∧
    ((∀ s, v.input = .prim (.pStr s) →
        (v.trimP).result.input = .prim (.pStr (jsTrim s)) ∧
        (v.uppercaseP).result.input = .prim (.pStr (jsToUpperCase s)) ∧
        (v.lowercaseP).result.input = .prim (.pStr (jsToLowerCase s))) ∧
     (v.firstP).result.input = .prim (firstIn v.input) ∧
     (v.lastP).result.input = .prim (lastIn v.input) ∧
     (Value.nthP i v).result.input = .prim (nthIn v.input i) ∧
     (Value.splitP sep v).result.input = .arr ((jsSplit v.input.jsString sep).map JsPrim.pStr) ∧
     (Value.joinP sep v).result.input = .prim (.pStr (jsJoin sep v.input.toArrayL)) ∧
     (v.uniqueP).result.input = .arr (jsSetDedup v.input.toArrayL) ∧
     (v.ascP).result.input = .arr (jsSort ascCmp v.input.toArrayL) ∧
     (v.descP).result.input = .arr (jsSort descCmp v.input.toArrayL)) ∧
    ((jsSetDedup v.input.toArrayL).Nodup ∧
     (∀ a, a ∈ jsSetDedup v.input.toArrayL ↔ a ∈ v.input.toArrayL) ∧
     (jsSort ascCmp v.input.toArrayL).Perm v.input.toArrayL ∧
     (jsSort descCmp v.input.toArrayL).Perm v.input.toArrayL) ∧
    ((v.trimP).sourceInput = v.input ∧
     (v.uppercaseP).sourceInput = v.input ∧
     (v.lowercaseP).sourceInput = v.input ∧
     (v.firstP).sourceInput = v.input ∧
     (v.lastP).sourceInput = v.input ∧
     (Value.nthP i v).sourceInput = v.input ∧
     (Value.splitP sep v).sourceInput = v.input ∧
     (Value.joinP sep v).sourceInput = v.input ∧
     (v.uniqueP).sourceInput = v.input) ∧
    ((∀ xs, v.input = .arr xs →
        (v.ascP).sourceInput = .arr (jsSort ascCmp xs) ∧
        (v.descP).sourceInput = .arr (jsSort descCmp xs)) ∧
     (∀ p, v.input = .prim p →
        (v.ascP).sourceInput = v.input ∧
        (v.descP).sourceInput = v.input)) := by
  refine ⟨⟨rfl, rfl, rfl, rfl, rfl, rfl⟩, ⟨rfl, rfl, rfl, rfl, rfl⟩,
    ⟨?_, rfl, rfl, rfl, rfl, rfl, rfl, rfl, rfl⟩,
    ⟨jsSetDedup_nodup _, fun a => jsSetDedup_mem a _, jsSort_perm _ _, jsSort_perm _ _⟩,
    ⟨rfl, rfl, rfl, rfl, rfl, rfl, rfl, rfl, rfl⟩, ⟨?_, ?_⟩⟩
  · intro s hs
    refine ⟨?_, ?_, ?_⟩ <;> simp [Value.trimP, Value.uppercaseP, Value.lowercaseP, hs]
  · intro xs hxs
    constructor <;> simp [Value.ascP, Value.descP, hxs, JsVal.toArrayL]
  · intro p hp
    constructor <;> simp [Value.ascP, Value.descP, hp]

/-- Witness for the amended claim C8 at concrete string and array values. -/
theorem claim_c8_witness :
    (Value.trimP ⟨.prim (.pStr " ab "), some "s"⟩).result.input = .prim (.pStr "ab") ∧
    (Value.ascP ⟨.arr [.pStr "b", .pStr "a"], some "letters"⟩).sourceInput
        = .arr [.pStr "a", .pStr "b"] ∧
    (Value.ascP ⟨.prim (.pStr " ab "), some "s"⟩).sourceInput = .prim (.pStr " ab ") ∧
    (Value.uniqueP ⟨.arr [.pStr "b", .pStr "a"], some "letters"⟩).sourceInput
        = .arr [.pStr "b", .pStr "a"] ∧
    (Value.nthP 0 ⟨.arr [.pStr "b", .pStr "a"], some "letters"⟩).result.name
        = some "1st value in letters" := by
  have h1 := claim_c8 ⟨.prim (.pStr " ab "), some "s"⟩ "," 0
  have h2 := claim_c8 ⟨.arr [.pStr "b", .pStr "a"], some "letters"⟩ "," 0
  refine ⟨?_, ?_, ?_, ?_, ?_⟩
  · rw [(h1.2.2.1.1 " ab " rfl).1]
    decide
  · rw [(h2.2.2.2.2.2.1 [.pStr "b", .pStr "a"] rfl).1]
    decide
  · exact (h1.2.2.2.2.2.2 (.pStr " ab ") rfl).1
  · exact h2.2.2.2.2.1.2.2.2.2.2.2.2.2
  · rw [h2.1.2.2.2.2.2]
    decide
